import Mathlib

/-!
Verification development for the GTEx loader
(src/parsers/GTEx/src/loadGTEx.py).

The Python source is shallowly embedded: dictionaries become association
lists, exceptions become Except, the streaming tar reader becomes a list of
entries together with an explicit action log, and CPython builtins used by
the loader (str.split, str.find, int(), float(), sorted) are modelled by
executable Lean functions over lists of characters.  Floating point values
parsed by float() are modelled as exact decimal numbers (an integer mantissa
with a power-of-ten exponent); the loader only ever compares a parsed value
with zero, and the sign of the exact decimal agrees with the sign of the
IEEE value for every decimal literal that does not underflow.
-/

/-! ### Character and string comparison

Python compares strings lexicographically by code point.  The Lean core
order on String does not reduce in the kernel, so we model the comparison
directly on the underlying character lists. -/

/-- Strict comparison of two characters by code point, as Python does. -/
def charLtB (a b : Char) : Bool := Nat.blt a.toNat b.toNat

/-- Strict lexicographic comparison of two character lists by code point;
this is the order Python uses on strings. -/
def listLtB : List Char → List Char → Bool
  | [], [] => false
  | [], _ :: _ => true
  | _ :: _, [] => false
  | a :: as, b :: bs => charLtB a b || (a == b && listLtB as bs)

/-- Strict lexicographic comparison of two strings by code point. -/
def strLtB (a b : String) : Bool := listLtB a.data b.data

theorem charLtB_irrefl (a : Char) : charLtB a a = false := by
  simp only [charLtB, Bool.eq_false_iff, ne_eq, Nat.blt_eq]
  omega

theorem charLtB_asymm {a b : Char} (h : charLtB a b = true) : charLtB b a = false := by
  simp only [charLtB, Nat.blt_eq] at h
  simp only [charLtB, Bool.eq_false_iff, ne_eq, Nat.blt_eq]
  omega

theorem charLtB_trans {a b c : Char} (h1 : charLtB a b = true) (h2 : charLtB b c = true) :
    charLtB a c = true := by
  simp only [charLtB, Nat.blt_eq] at h1 h2 ⊢
  omega

theorem char_toNat_inj {a b : Char} (h : a.toNat = b.toNat) : a = b :=
  Char.ext (UInt32.ext h)

theorem charLtB_conn {a b : Char} (h1 : charLtB a b = false) (h2 : charLtB b a = false) :
    a = b := by
  simp only [charLtB] at h1 h2
  apply char_toNat_inj
  have g1 : ¬ a.toNat < b.toNat := by
    intro hc
    rw [← Nat.blt_eq] at hc
    simp [hc] at h1
  have g2 : ¬ b.toNat < a.toNat := by
    intro hc
    rw [← Nat.blt_eq] at hc
    simp [hc] at h2
  omega

theorem listLtB_irrefl (l : List Char) : listLtB l l = false := by
  induction l with
  | nil => rfl
  | cons a as ih => simp [listLtB, charLtB_irrefl, ih]

theorem listLtB_asymm : ∀ {a b : List Char}, listLtB a b = true → listLtB b a = false
  | [], [], h => by simp [listLtB] at h
  | [], _ :: _, _ => by simp [listLtB]
  | _ :: _, [], h => by simp [listLtB] at h
  | a :: as, b :: bs, h => by
    simp only [listLtB, Bool.or_eq_true, Bool.and_eq_true, beq_iff_eq] at h ⊢
    rcases h with h | ⟨rfl, h⟩
    · simp only [Bool.or_eq_false_iff, Bool.and_eq_false_iff]
      refine ⟨charLtB_asymm h, Or.inl ?_⟩
      rw [beq_eq_false_iff_ne]
      intro hc
      subst hc
      rw [charLtB_irrefl] at h
      exact Bool.false_ne_true h
    · simp [charLtB_irrefl, listLtB_asymm h]

theorem listLtB_conn : ∀ {a b : List Char}, listLtB a b = false → listLtB b a = false → a = b
  | [], [], _, _ => rfl
  | [], _ :: _, h, _ => by simp [listLtB] at h
  | _ :: _, [], _, h => by simp [listLtB] at h
  | a :: as, b :: bs, h1, h2 => by
    simp only [listLtB, Bool.or_eq_false_iff, Bool.and_eq_false_iff] at h1 h2
    obtain ⟨hab, h1r⟩ := h1
    obtain ⟨hba, h2r⟩ := h2
    have hab2 : a = b := charLtB_conn hab hba
    subst hab2
    rcases h1r with h1r | h1r
    · simp at h1r
    · rcases h2r with h2r | h2r
      · simp at h2r
      · rw [listLtB_conn h1r h2r]

theorem listLtB_trans : ∀ {a b c : List Char},
    listLtB a b = true → listLtB b c = true → listLtB a c = true
  | [], [], _, h, _ => by simp [listLtB] at h
  | [], _ :: _, [], _, h => by simp [listLtB] at h
  | [], _ :: _, _ :: _, _, _ => by simp [listLtB]
  | _ :: _, [], _, h, _ => by simp [listLtB] at h
  | _ :: _, _ :: _, [], _, h => by simp [listLtB] at h
  | a :: as, b :: bs, c :: cs, h1, h2 => by
    simp only [listLtB, Bool.or_eq_true, Bool.and_eq_true, beq_iff_eq] at h1 h2 ⊢
    rcases h1 with h1 | ⟨rfl, h1⟩
    · rcases h2 with h2 | ⟨rfl, h2⟩
      · exact Or.inl (charLtB_trans h1 h2)
      · exact Or.inl h1
    · rcases h2 with h2 | ⟨rfl, h2⟩
      · exact Or.inl h2
      · exact Or.inr ⟨rfl, listLtB_trans h1 h2⟩

theorem strLtB_irrefl (a : String) : strLtB a a = false := listLtB_irrefl a.data

theorem strLtB_asymm {a b : String} (h : strLtB a b = true) : strLtB b a = false :=
  listLtB_asymm h

theorem strLtB_conn {a b : String} (h1 : strLtB a b = false) (h2 : strLtB b a = false) :
    a = b := by
  apply String.ext
  exact listLtB_conn h1 h2

theorem strLtB_trans {a b c : String} (h1 : strLtB a b = true) (h2 : strLtB b c = true) :
    strLtB a c = true := listLtB_trans h1 h2

/-! ### Python builtin models: split, substring search, int() and float() -/

/-- Model of the Python builtin str.split with a one-character separator:
splitting an empty string yields one empty field, and every occurrence of
the separator starts a new field. -/
def pySplitChars (sep : Char) : List Char → List (List Char)
  | [] => [[]]
  | c :: cs =>
    let r := pySplitChars sep cs
    if c = sep then [] :: r
    else
      match r with
      | [] => [[c]]
      | h :: t => (c :: h) :: t

/-- Model of the Python expression s.split(sep) for a one-character sep. -/
def pySplit (sep : Char) (s : String) : List String :=
  (pySplitChars sep s.data).map (fun cs => String.mk cs)

/-- Decides whether the second list occurs as a contiguous run at the head
of the first list. -/
def beginsWith : List Char → List Char → Bool
  | _, [] => true
  | [], _ :: _ => false
  | c :: cs, p :: ps => c == p && beginsWith cs ps

/-- Decides whether pat occurs as a contiguous run anywhere in l. -/
def hasSubList (l pat : List Char) : Bool :=
  match l with
  | [] => pat.isEmpty
  | _ :: cs => beginsWith l pat || hasSubList cs pat

/-- Model of the Python test s.find(pat) != -1: substring containment. -/
def hasSubstr (s pat : String) : Bool := hasSubList s.data pat.data

/-- Decides whether a character is an ASCII decimal digit. -/
def isDigitChar (c : Char) : Bool := Nat.ble 48 c.toNat && Nat.ble c.toNat 57

/-- Value of a list of ASCII digits read in base 10. -/
def digitsToNat (cs : List Char) : Nat :=
  cs.foldl (fun a c => a * 10 + (c.toNat - 48)) 0

/-- Splits an optional leading sign off a character list, returning the sign
as an integer factor together with the remaining characters. -/
def splitSign : List Char → Int × List Char
  | '+' :: cs => (1, cs)
  | '-' :: cs => (-1, cs)
  | cs => (1, cs)

/-- Model of the Python builtin int() on a string: an optional sign followed
by a nonempty run of digits.  Returns none where CPython raises ValueError.
(Surrounding whitespace and underscore digit separators are not modelled.) -/
def pyIntOfString (s : String) : Option Int :=
  let (sgn, ds) := splitSign s.data
  if ds ≠ [] ∧ ds.all isDigitChar then some (sgn * digitsToNat ds) else none

/-- Exact decimal number standing in for a CPython float produced by
float(text): an integer mantissa scaled by a power of ten.  The loader only
ever compares such a value with zero, and the sign of the exact decimal
agrees with the sign of the rounded IEEE value for all inputs that do not
underflow to zero. -/
structure PyFloat where
  mantissa : Int
  exp10 : Int
deriving DecidableEq

/-- Rational value denoted by an exact decimal. -/
def PyFloat.toRat (x : PyFloat) : ℚ := (x.mantissa : ℚ) * (10 : ℚ) ^ x.exp10

/-- Executable sign test: the decimal is strictly positive exactly when its
mantissa is (theorem PyFloat.isPos_iff_toRat_pos); this models the Python
comparison float(slope) > 0. -/
def PyFloat.isPos (x : PyFloat) : Bool := decide (0 < x.mantissa)

theorem PyFloat.isPos_iff_toRat_pos (x : PyFloat) : x.isPos = true ↔ 0 < x.toRat := by
  unfold PyFloat.isPos PyFloat.toRat
  rw [decide_eq_true_iff]
  have hpow : (0 : ℚ) < (10 : ℚ) ^ x.exp10 := zpow_pos (by norm_num) _
  constructor
  · intro h
    apply mul_pos _ hpow
    exact_mod_cast h
  · intro h
    by_contra hc
    push_neg at hc
    have : (x.mantissa : ℚ) ≤ 0 := by exact_mod_cast hc
    nlinarith

/-- Splits a character list at the first occurrence of the letter e or E,
as Python float syntax does for the exponent part. -/
def splitExp : List Char → List Char × Option (List Char)
  | [] => ([], none)
  | c :: cs =>
    if c = 'e' ∨ c = 'E' then ([], some cs)
    else
      let r := splitExp cs
      (c :: r.1, r.2)

/-- Model of the Python builtin float() on a string: an optional sign, a
mantissa made of digits with at most one decimal point and at least one
digit, and an optional exponent introduced by e or E with an optional sign
and a nonempty run of digits.  Returns none where CPython raises
ValueError.  (Whitespace, underscores, inf and nan are not modelled; the
result is the exact decimal value rather than the rounded IEEE value.) -/
def pyFloatOfString (s : String) : Option PyFloat :=
  let (sgn, cs) := splitSign s.data
  let (mant, expPart) := splitExp cs
  let expVal : Option Int :=
    match expPart with
    | none => some 0
    | some ecs =>
      let (esgn, eds) := splitSign ecs
      if eds ≠ [] ∧ eds.all isDigitChar then some (esgn * digitsToNat eds) else none
  match expVal with
  | none => none
  | some e =>
    match pySplitChars '.' mant with
    | [ip] =>
      if ip ≠ [] ∧ ip.all isDigitChar then some ⟨sgn * digitsToNat ip, e⟩ else none
    | [ip, fp] =>
      if (ip ++ fp) ≠ [] ∧ (ip ++ fp).all isDigitChar then
        some ⟨sgn * digitsToNat (ip ++ fp), e - fp.length⟩
      else none
    | _ => none

/-- Lookup in an association list, modelling a Python dict read; the
states built by the loader never hold a key twice, so first match and
dict semantics agree. -/
def assocFind : List (String × α) → String → Option α
  | [], _ => none
  | p :: l, k => if p.1 == k then some p.2 else assocFind l k

/-! ### Data model of the loader -/

/-- Constant imported by the loader from Common.prefixes.  Modelled from the
spec: the HGVS curie namespace used for variant identifiers; the actual
constant lives outside the repository snapshot and its concrete value never
influences control flow. -/
def HGVSPrefix : String := "HGVS"

/-- Constant imported by the loader from Common.node_types.  Modelled from
the spec: the fixed type tag for variant nodes. -/
def sequenceVariantType : String := "biolink:SequenceVariant"

/-- Constant imported by the loader from Common.node_types.  Modelled from
the spec: the fixed type tag for gene nodes. -/
def geneNodeType : String := "biolink:Gene"

/-- Node written to the graph sink by write_node. -/
structure NodeWrite where
  nodeId : String
  nodeName : String
  nodeTypes : List String
deriving DecidableEq

/-- One element of self.edge_list: the dict built by create_edge. -/
structure EdgeRecord where
  subject : String
  object : String
  predicate : String
  expressed_in : String
  p_value : PyFloat
  slope : PyFloat
deriving DecidableEq

/-- Edge written to the sink by coalesce_and_write_edges: the group key
fields plus the three parallel property arrays. -/
structure CoalescedEdge where
  subject : String
  object : String
  predicate : String
  expressed_in : List String
  p_value : List PyFloat
  slope : List PyFloat
deriving DecidableEq

/-- Relationship tuple yielded by parse_file_and_yield_relationships. -/
structure GtexRelationship where
  anatomyId : String
  gtexVariant : String
  gtexGene : String
  pValue : String
  slope : String
deriving DecidableEq

/-- Mutable state of the GTExLoader instance visible to the claims: the
memoization caches, the gene dedup set, the accumulated edge list and the
log of nodes and edges written to the sink. -/
structure LoaderState where
  varLookup : List (String × Option String)
  failedConversions : List String
  writtenGenes : List String
  edgeList : List EdgeRecord
  nodesWritten : List NodeWrite
deriving DecidableEq

/-- External conversion capability convert_variant_to_hgvs from
Common.hgvs_utils, which is outside the repository snapshot.  It is kept
abstract: any function of chromosome, position, reference allele, alternate
allele, reference genome and reference patch, returning an HGVS expression
or a falsy value (none models both Python None and the empty string when
combined with the truthiness test in process_variant). -/
def HgvsConv : Type := String → Int → String → String → String → String → Option String

/-! ### Sort order used by coalesce_and_write_edges

The source sorts self.edge_list with
sorted(self.edge_list, key=lambda i: (i["subject"], i["object"], i["predicate"]))
which is a stable sort by the lexicographic order on the key triple.  We
model it with List.insertionSort, which is a stable sort, under the
decidable total preorder below. -/

/-- Sort key used by the sorted(...) call: subject, then object, then
predicate. -/
def sortKeyOf (e : EdgeRecord) : String × String × String :=
  (e.subject, e.object, e.predicate)

/-- Boolean lexicographic order on sort keys. -/
def keyLeB (a b : String × String × String) : Bool :=
  strLtB a.1 b.1 ||
    (a.1 == b.1 &&
      (strLtB a.2.1 b.2.1 ||
        (a.2.1 == b.2.1 && (strLtB a.2.2 b.2.2 || a.2.2 == b.2.2))))

/-- Propositional order on sort keys. -/
def keyLe (a b : String × String × String) : Prop := keyLeB a b = true

instance : DecidableRel keyLe := fun a b => Bool.decEq (keyLeB a b) true

/-- Propositional order on edge records under the sort key. -/
def sortKeyLe (a b : EdgeRecord) : Prop := keyLe (sortKeyOf a) (sortKeyOf b)

instance : DecidableRel sortKeyLe := fun a b => Bool.decEq (keyLeB (sortKeyOf a) (sortKeyOf b)) true

theorem keyLeB_refl (a : String × String × String) : keyLeB a a = true := by
  simp [keyLeB]

theorem keyLeB_refl_of_eq {a b : String × String × String} (h : a = b) : keyLeB a b = true := by
  subst h
  exact keyLeB_refl a

theorem keyLeB_total (a b : String × String × String) :
    keyLeB a b = true ∨ keyLeB b a = true := by
  by_cases h1 : strLtB a.1 b.1 = true
  · exact Or.inl (by simp [keyLeB, h1])
  · by_cases h1b : strLtB b.1 a.1 = true
    · exact Or.inr (by simp [keyLeB, h1b])
    · have e1 : a.1 = b.1 := strLtB_conn (Bool.eq_false_iff.mpr h1) (Bool.eq_false_iff.mpr h1b)
      by_cases h2 : strLtB a.2.1 b.2.1 = true
      · exact Or.inl (by simp [keyLeB, e1, h2])
      · by_cases h2b : strLtB b.2.1 a.2.1 = true
        · exact Or.inr (by simp [keyLeB, e1, h2b])
        · have e2 : a.2.1 = b.2.1 :=
            strLtB_conn (Bool.eq_false_iff.mpr h2) (Bool.eq_false_iff.mpr h2b)
          by_cases h3 : strLtB a.2.2 b.2.2 = true
          · exact Or.inl (by simp [keyLeB, e1, e2, h3])
          · by_cases h3b : strLtB b.2.2 a.2.2 = true
            · exact Or.inr (by simp [keyLeB, e1, e2, h3b])
            · have e3 : a.2.2 = b.2.2 :=
                strLtB_conn (Bool.eq_false_iff.mpr h3) (Bool.eq_false_iff.mpr h3b)
              exact Or.inl (by simp [keyLeB, e1, e2, e3])

theorem keyLeB_antisymm {a b : String × String × String}
    (h1 : keyLeB a b = true) (h2 : keyLeB b a = true) : a = b := by
  simp only [keyLeB, Bool.or_eq_true, Bool.and_eq_true, beq_iff_eq] at h1 h2
  rcases h1 with h1 | ⟨e1, h1⟩
  · rcases h2 with h2 | ⟨e2, h2⟩
    · rw [strLtB_asymm h1] at h2
      exact absurd h2 (Bool.false_ne_true)
    · rw [e2, strLtB_irrefl] at h1
      exact absurd h1 (Bool.false_ne_true)
  · rcases h2 with h2 | ⟨e2, h2⟩
    · rw [e1, strLtB_irrefl] at h2
      exact absurd h2 (Bool.false_ne_true)
    · rcases h1 with h1 | ⟨f1, h1⟩
      · rcases h2 with h2 | ⟨f2, h2⟩
        · rw [strLtB_asymm h1] at h2
          exact absurd h2 (Bool.false_ne_true)
        · rw [f2, strLtB_irrefl] at h1
          exact absurd h1 (Bool.false_ne_true)
      · rcases h2 with h2 | ⟨f2, h2⟩
        · rw [f1, strLtB_irrefl] at h2
          exact absurd h2 (Bool.false_ne_true)
        · rcases h1 with h1 | h1
          · rcases h2 with h2 | h2
            · rw [strLtB_asymm h1] at h2
              exact absurd h2 (Bool.false_ne_true)
            · rw [h2, strLtB_irrefl] at h1
              exact absurd h1 (Bool.false_ne_true)
          · have : a = (a.1, a.2.1, a.2.2) := rfl
            rw [this, e1, f1, h1]

theorem keyLeB_trans {a b c : String × String × String}
    (h1 : keyLeB a b = true) (h2 : keyLeB b c = true) : keyLeB a c = true := by
  simp only [keyLeB, Bool.or_eq_true, Bool.and_eq_true, beq_iff_eq] at h1 h2 ⊢
  rcases h1 with h1 | ⟨e1, h1⟩
  · rcases h2 with h2 | ⟨e2, h2⟩
    · exact Or.inl (strLtB_trans h1 h2)
    · rw [e2] at h1
      exact Or.inl h1
  · rcases h2 with h2 | ⟨e2, h2⟩
    · rw [e1]
      exact Or.inl h2
    · refine Or.inr ⟨e1.trans e2, ?_⟩
      rcases h1 with h1 | ⟨f1, h1⟩
      · rcases h2 with h2 | ⟨f2, h2⟩
        · exact Or.inl (strLtB_trans h1 h2)
        · rw [f2] at h1
          exact Or.inl h1
      · rcases h2 with h2 | ⟨f2, h2⟩
        · rw [f1]
          exact Or.inl h2
        · refine Or.inr ⟨f1.trans f2, ?_⟩
          rcases h1 with h1 | h1
          · rcases h2 with h2 | h2
            · exact Or.inl (strLtB_trans h1 h2)
            · rw [h2] at h1
              exact Or.inl h1
          · rcases h2 with h2 | h2
            · rw [h1]
              exact Or.inl h2
            · exact Or.inr (h1.trans h2)

instance : IsTotal EdgeRecord sortKeyLe :=
  ⟨fun a b => keyLeB_total (sortKeyOf a) (sortKeyOf b)⟩

instance : IsTrans EdgeRecord sortKeyLe :=
  ⟨fun _ _ _ h1 h2 => keyLeB_trans h1 h2⟩

instance : IsTotal (String × String × String) keyLe :=
  ⟨fun a b => keyLeB_total a b⟩

instance : IsTrans (String × String × String) keyLe :=
  ⟨fun _ _ _ h1 h2 => keyLeB_trans h1 h2⟩

instance : IsAntisymm (String × String × String) keyLe :=
  ⟨fun _ _ h1 h2 => keyLeB_antisymm h1 h2⟩

theorem sortKeyLe_antisymm {a b : EdgeRecord} (h1 : sortKeyLe a b) (h2 : sortKeyLe b a) :
    sortKeyOf a = sortKeyOf b := keyLeB_antisymm h1 h2

theorem sortKeyLe_of_eq {a b : EdgeRecord} (h : sortKeyOf a = sortKeyOf b) : sortKeyLe a b :=
  keyLeB_refl_of_eq h

/-! ### Edge coalescing (coalesce_and_write_edges, lines 357 to 427)

The Python loop is embedded directly: loopGo carries the boundary group
key, the current record, the three parallel accumulator lists and the edges
written so far.  An empty accumulator makes the priming subscript
self.edge_list[0] raise IndexError, modelled by Except.error. -/

/-- Group key built in the loop body: subject + predicate + object by
string concatenation. -/
def groupKey (e : EdgeRecord) : String := e.subject ++ e.predicate ++ e.object

/-- Coalesced edge written by write_edge for a finished group: key fields
from the record that opened the group and the three accumulated arrays. -/
def flushEdge (cur : EdgeRecord) (aA : List String) (aP aS : List PyFloat) : CoalescedEdge :=
  ⟨cur.subject, cur.object, cur.predicate, aA, aP, aS⟩

/-- Embedding of the for-loop of coalesce_and_write_edges followed by the
trailing flush: startKey is start_group_key, cur is cur_record, aA aP aS
are the anatomy_ids, p_values and slopes lists, out is the list of edges
already written to the sink. -/
def loopGo (startKey : String) (cur : EdgeRecord) (aA : List String) (aP aS : List PyFloat)
    (out : List CoalescedEdge) : List EdgeRecord → List CoalescedEdge
  | [] => if aA.isEmpty then out else out ++ [flushEdge cur aA aP aS]
  | item :: rest =>
    if groupKey item = startKey then
      loopGo startKey cur (aA ++ [item.expressed_in]) (aP ++ [item.p_value])
        (aS ++ [item.slope]) out rest
    else
      loopGo (groupKey item) item [item.expressed_in] [item.p_value] [item.slope]
        (out ++ [flushEdge cur aA aP aS]) rest

/-- Embedding of coalesce_and_write_edges: sort the accumulated edge list
by the (subject, object, predicate) key with the stable sort, prime the
loop with the first record (IndexError on an empty list), run the grouping
loop over the whole sorted list, and return the coalesced edges written to
the sink in order. -/
def coalesce_and_write_edges (edgeList : List EdgeRecord) :
    Except Unit (List CoalescedEdge) :=
  match List.insertionSort sortKeyLe edgeList with
  | [] => Except.error ()
  | first :: rest =>
    Except.ok (loopGo (groupKey first) first [] [] [] [] (first :: rest))

/-! ### Chunk decomposition used to reason about the loop -/

/-- Adds one record to the front of a chunk decomposition, merging it into
the first chunk when the group keys agree.  A chunk is a head record
together with the remaining records of its run. -/
def addChunk (x : EdgeRecord) :
    List (EdgeRecord × List EdgeRecord) → List (EdgeRecord × List EdgeRecord)
  | [] => [(x, [])]
  | (y, ys) :: rest =>
    if groupKey x = groupKey y then (x, y :: ys) :: rest else (x, []) :: (y, ys) :: rest

/-- Decomposition of a record list into maximal runs of equal group key. -/
def chunksOf (l : List EdgeRecord) : List (EdgeRecord × List EdgeRecord) :=
  l.foldr addChunk []

/-- Full record list of one chunk. -/
def chunkList (c : EdgeRecord × List EdgeRecord) : List EdgeRecord := c.1 :: c.2

/-- Coalesced edge generated by one chunk. -/
def mkEdge (c : EdgeRecord × List EdgeRecord) : CoalescedEdge :=
  ⟨c.1.subject, c.1.object, c.1.predicate,
    (chunkList c).map EdgeRecord.expressed_in,
    (chunkList c).map EdgeRecord.p_value,
    (chunkList c).map EdgeRecord.slope⟩

/-! ### Variant resolution, gene registration and edge creation -/

/-- Components of a GTEx variant token, as read by process_variant: drop
the three leading characters, split on underscores, take the first five
components and parse the position as an int.  Returns none where Python
raises IndexError or ValueError. -/
def variantComponents (tok : String) : Option (String × Int × String × String × String) :=
  match pySplitChars '_' (tok.data.drop 3) with
  | c :: p :: r :: a :: g :: _ =>
    match pyIntOfString (String.mk p) with
    | some n => some (String.mk c, n, String.mk r, String.mk a, String.mk g)
    | none => none
  | _ => none

/-- Embedding of process_variant (lines 204 to 242): consult the memo
lookup, otherwise parse the token, call the external conversion with patch
p1, and on a truthy result store the curie and write the variant node once;
on a falsy result record the failure in both caches.  The first component
of the result is the returned variant id (none models Python None). -/
def process_variant (conv : HgvsConv) (st : LoaderState) (tok : String) :
    Except Unit (Option String × LoaderState) :=
  match assocFind st.varLookup tok with
  | some cached => Except.ok (cached, st)
  | none =>
    match variantComponents tok with
    | none => Except.error ()
    | some (c, n, r, a, g) =>
      match conv c n r a g "p1" with
      | some hgvs =>
        if hgvs = "" then
          Except.ok (none,
            { st with
              varLookup := st.varLookup ++ [(tok, none)],
              failedConversions := st.failedConversions ++ [tok] })
        else
          Except.ok (some (HGVSPrefix ++ ":" ++ hgvs),
            { st with
              varLookup := st.varLookup ++ [(tok, some (HGVSPrefix ++ ":" ++ hgvs))],
              nodesWritten := st.nodesWritten ++
                [⟨HGVSPrefix ++ ":" ++ hgvs, hgvs, [sequenceVariantType]⟩] })
      | none =>
        Except.ok (none,
          { st with
            varLookup := st.varLookup ++ [(tok, none)],
            failedConversions := st.failedConversions ++ [tok] })

/-- Embedding of process_gene (lines 246 to 257): write the gene node on
first sight, dedup afterwards; the node name is the part of the curie after
the colon (IndexError if the id has no colon). -/
def process_gene (st : LoaderState) (geneId : String) :
    Except Unit (String × LoaderState) :=
  if geneId ∈ st.writtenGenes then Except.ok (geneId, st)
  else
    match (pySplit ':' geneId).get? 1 with
    | none => Except.error ()
    | some namePart =>
      Except.ok (geneId,
        { st with
          writtenGenes := st.writtenGenes ++ [geneId],
          nodesWritten := st.nodesWritten ++ [⟨geneId, namePart, [geneNodeType]⟩] })

/-- Embedding of create_edge (lines 259 to 278): choose the predicate from
the dataset variant and the sign of float(slope), then build the edge dict
with float(p_value) and float(slope); a text that float() rejects raises
ValueError, modelled by Except.error. -/
def create_edge (anatomyId variantId geneId : String) (pValue slope : String)
    (isSqtl : Bool) : Except Unit EdgeRecord :=
  match (if isSqtl then some "CTD:affects_splicing_of"
         else match pyFloatOfString slope with
              | some sv => some (if sv.isPos then "CTD:increases_expression_of"
                                 else "CTD:decreases_expression_of")
              | none => none) with
  | none => Except.error ()
  | some predicate =>
    match pyFloatOfString pValue, pyFloatOfString slope with
    | some pv, some sv =>
      Except.ok ⟨variantId, geneId, predicate, anatomyId, pv, sv⟩
    | _, _ => Except.error ()

/-! ### Tissue record parsing (parse_file_and_yield_relationships, lines 280 to 355) -/

/-- Outcome of processing one data line of a tissue file. -/
inductive RowResult where
  | yieldRel : GtexRelationship → RowResult
  | skipRow : RowResult
  | fatalRow : RowResult
deriving DecidableEq

/-- Embedding of the per-line body of parse_file_and_yield_relationships:
split on tabs, discard the line with a logged error unless it has exactly
12 fields, then extract the variant token, the gene id (for sQTL the fifth
colon-component of the phenotype id, version suffix stripped; for eQTL the
gene column, version suffix stripped), the p-value text and the slope text.
The try block only catches KeyError, but the extractions index lists and so
raise IndexError, which propagates: such a line is fatalRow, not skipRow. -/
def parseLine (isSqtl : Bool) (anatomyId : String) (line : String) : RowResult :=
  let fields := pySplit '\t' line
  if fields.length ≠ 12 then RowResult.skipRow
  else
    match fields.get? 0, fields.get? 1, fields.get? 6, fields.get? 7 with
    | some variantTok, some geneCol, some pValueTok, some slopeTok =>
      if isSqtl then
        match (pySplit ':' geneCol).get? 4 with
        | none => RowResult.fatalRow
        | some gene =>
          match pySplit '.' gene with
          | [] => RowResult.fatalRow
          | g0 :: _ =>
            RowResult.yieldRel
              ⟨anatomyId, variantTok, "ENSEMBL:" ++ g0, pValueTok, slopeTok⟩
      else
        match pySplit '.' geneCol with
        | [] => RowResult.fatalRow
        | g0 :: _ =>
          RowResult.yieldRel
            ⟨anatomyId, variantTok, "ENSEMBL:" ++ g0, pValueTok, slopeTok⟩
    | _, _, _, _ => RowResult.fatalRow

/-- Processes the data lines of one tissue file in order, collecting the
yielded relationship tuples; a fatalRow aborts the whole generator, so
later lines are never reached. -/
def parseTissueRows (isSqtl : Bool) (anatomyId : String) :
    List String → Except Unit (List GtexRelationship)
  | [] => Except.ok []
  | row :: rest =>
    match parseLine isSqtl anatomyId row with
    | RowResult.yieldRel r =>
      match parseTissueRows isSqtl anatomyId rest with
      | Except.ok rs => Except.ok (r :: rs)
      | Except.error e => Except.error e
    | RowResult.skipRow => parseTissueRows isSqtl anatomyId rest
    | RowResult.fatalRow => Except.error ()

/-- One member of the tar archive: its path name and, when it is opened as
a gzip text stream, its decompressed lines (the first being the header). -/
structure TarEntry where
  name : String
  lines : List String
deriving DecidableEq

/-- Observable side effects of the archive stream reader: obtaining a
handle for an entry via tar.extractfile, and opening the handle as a
decompressing stream via gzip.open. -/
inductive TarAction where
  | extractEntry : String → TarAction
  | openGzip : String → TarAction
deriving DecidableEq

/-- Embedding of one iteration of the entry loop of
parse_file_and_yield_relationships: extractfile is called on every entry
before the marker test; entries whose name lacks the marker signif are then
skipped; for matching entries the tissue name is the piece of the path
after the first slash and before the first dot (IndexError when the name
has no slash), unknown tissues are skipped, and known tissues are opened
with gzip and parsed line by line after discarding the header (next() on an
empty stream is fatal inside the generator). -/
def processEntry (isSqtl : Bool) (lookup : List (String × String)) (e : TarEntry) :
    List TarAction × Except Unit (List GtexRelationship) :=
  if hasSubstr e.name "signif" then
    match (pySplit '/' e.name).get? 1 with
    | none => ([TarAction.extractEntry e.name], Except.error ())
    | some seg =>
      match pySplit '.' seg with
      | [] => ([TarAction.extractEntry e.name], Except.error ())
      | tissueName :: _ =>
        match assocFind lookup tissueName with
        | some anatomyId =>
          ([TarAction.extractEntry e.name, TarAction.openGzip e.name],
            match e.lines with
            | [] => Except.error ()
            | _header :: rows => parseTissueRows isSqtl anatomyId rows)
        | none => ([TarAction.extractEntry e.name], Except.ok [])
  else ([TarAction.extractEntry e.name], Except.ok [])

/-- Embedding of parse_file_and_yield_relationships over the whole archive:
entries are visited in order, their relationship tuples are concatenated,
and a fatal error inside one entry aborts the generator, discarding all
later entries.  The first component is the log of reader actions that have
happened up to the abort, if any. -/
def parse_file_and_yield_relationships (isSqtl : Bool) (lookup : List (String × String)) :
    List TarEntry → List TarAction × Except Unit (List GtexRelationship)
  | [] => ([], Except.ok [])
  | e :: es =>
    ((processEntry isSqtl lookup e).1 ++
      (match (processEntry isSqtl lookup e).2 with
       | Except.error _ => []
       | Except.ok _ => (parse_file_and_yield_relationships isSqtl lookup es).1),
     match (processEntry isSqtl lookup e).2 with
     | Except.error _ => Except.error ()
     | Except.ok rels =>
       match (parse_file_and_yield_relationships isSqtl lookup es).2 with
       | Except.error _ => Except.error ()
       | Except.ok more => Except.ok (rels ++ more))

/-! ### The relationship loop of load (lines 151 to 184) -/

/-- Embedding of the body of the per-relationship loop in load: resolve the
variant; when the returned id is truthy, register the gene, create the edge
and append it to self.edge_list; when the id is falsy nothing further
happens for the tuple. -/
def loadStep (conv : HgvsConv) (isSqtl : Bool) (st : LoaderState) (rel : GtexRelationship) :
    Except Unit LoaderState :=
  match process_variant conv st rel.gtexVariant with
  | Except.error e => Except.error e
  | Except.ok (variantId, st1) =>
    match variantId with
    | some v =>
      if v = "" then Except.ok st1
      else
        match process_gene st1 rel.gtexGene with
        | Except.error e => Except.error e
        | Except.ok (geneId, st2) =>
          match create_edge rel.anatomyId v geneId rel.pValue rel.slope isSqtl with
          | Except.error e => Except.error e
          | Except.ok edge => Except.ok { st2 with edgeList := st2.edgeList ++ [edge] }
    | none => Except.ok st1

/-- Embedding of the per-relationship loop of load over a list of yielded
relationship tuples: an uncaught exception in the body aborts the loop and
the remaining tuples are never processed. -/
def loadRelationships (conv : HgvsConv) (isSqtl : Bool) (st : LoaderState) :
    List GtexRelationship → Except Unit LoaderState
  | [] => Except.ok st
  | rel :: rest =>
    match loadStep conv isSqtl st rel with
    | Except.error e => Except.error e
    | Except.ok st1 => loadRelationships conv isSqtl st1 rest

/-! ### Correspondence between the imperative loop and the chunk view -/

theorem chunksOf_cons (x : EdgeRecord) (xs : List EdgeRecord) :
    chunksOf (x :: xs) = addChunk x (chunksOf xs) := rfl

theorem loopGo_out (rest : List EdgeRecord) : ∀ (sk : String) (cr : EdgeRecord)
    (aA : List String) (aP aS : List PyFloat) (out : List CoalescedEdge),
    loopGo sk cr aA aP aS out rest = out ++ loopGo sk cr aA aP aS [] rest := by
  induction rest with
  | nil =>
    intro sk cr aA aP aS out
    by_cases h : aA.isEmpty
    · simp [loopGo, h]
    · simp [loopGo, h]
  | cons x rest2 ih =>
    intro sk cr aA aP aS out
    by_cases h : groupKey x = sk
    · simp only [loopGo, if_pos h]
      exact ih sk cr _ _ _ out
    · simp only [loopGo, if_neg h, List.nil_append]
      rw [ih _ _ _ _ _ (out ++ [flushEdge cr aA aP aS]),
        ih _ _ _ _ _ [flushEdge cr aA aP aS], List.append_assoc]

theorem loopGo_chunks (rest : List EdgeRecord) : ∀ (sk : String) (cr : EdgeRecord)
    (aA : List String) (aP aS : List PyFloat),
    loopGo sk cr aA aP aS [] rest =
      (match chunksOf rest with
       | [] => if aA.isEmpty then [] else [flushEdge cr aA aP aS]
       | (y, ys) :: cs =>
         if groupKey y = sk then
           flushEdge cr (aA ++ (chunkList (y, ys)).map EdgeRecord.expressed_in)
             (aP ++ (chunkList (y, ys)).map EdgeRecord.p_value)
             (aS ++ (chunkList (y, ys)).map EdgeRecord.slope) :: cs.map mkEdge
         else
           flushEdge cr aA aP aS :: mkEdge (y, ys) :: cs.map mkEdge) := by
  induction rest with
  | nil =>
    intro sk cr aA aP aS
    simp [loopGo, chunksOf]
  | cons x rest2 ih =>
    intro sk cr aA aP aS
    rw [chunksOf_cons]
    by_cases h : groupKey x = sk
    · simp only [loopGo, if_pos h]
      rw [ih]
      rcases hc : chunksOf rest2 with - | ⟨⟨y, ys⟩, cs⟩
      · simp only [addChunk]
        have hne : (aA ++ [x.expressed_in]).isEmpty = false := by
          simp [List.isEmpty_iff]
        rw [if_neg (by simp [hne]), if_pos h]
        simp [flushEdge, chunkList]
      · by_cases hm : groupKey x = groupKey y
        · simp only [addChunk, if_pos hm]
          have hy : groupKey y = sk := by rw [← hm, h]
          rw [if_pos hy, if_pos h]
          simp [chunkList, List.append_assoc]
        · simp only [addChunk, if_neg hm]
          have hy : ¬ groupKey y = sk := by
            intro hc2
            exact hm (h.symm ▸ hc2.symm ▸ rfl)
          rw [if_neg hy, if_pos h]
          simp [chunkList, flushEdge, mkEdge]
    · simp only [loopGo, if_neg h]
      rw [loopGo_out, ih]
      rcases hc : chunksOf rest2 with - | ⟨⟨y, ys⟩, cs⟩
      · simp only [addChunk]
        rw [if_neg h]
        simp [flushEdge, mkEdge, chunkList]
      · by_cases hm : groupKey x = groupKey y
        · simp only [addChunk, if_pos hm]
          rw [if_pos hm.symm, if_neg h]
          simp [chunkList, flushEdge, mkEdge]
        · simp only [addChunk, if_neg hm]
          have hy : ¬ groupKey y = groupKey x := fun hc2 => hm hc2.symm
          rw [if_neg hy, if_neg h]
          simp [chunkList, flushEdge, mkEdge]

theorem chunksOf_cons_shape (x : EdgeRecord) (xs : List EdgeRecord) :
    ∃ t cs, chunksOf (x :: xs) = (x, t) :: cs := by
  rw [chunksOf_cons]
  rcases chunksOf xs with - | ⟨⟨y, ys⟩, cs⟩
  · exact ⟨[], [], rfl⟩
  · by_cases hm : groupKey x = groupKey y
    · exact ⟨y :: ys, cs, by simp [addChunk, hm]⟩
    · exact ⟨[], (y, ys) :: cs, by simp [addChunk, hm]⟩

theorem coalesce_spec (l : List EdgeRecord) (hne : l ≠ []) :
    coalesce_and_write_edges l =
      Except.ok ((chunksOf (List.insertionSort sortKeyLe l)).map mkEdge) := by
  have hperm := List.perm_insertionSort sortKeyLe l
  rcases hsl : List.insertionSort sortKeyLe l with - | ⟨first, rest⟩
  · rw [hsl] at hperm
    exact absurd (List.Perm.nil_eq hperm).symm hne
  · unfold coalesce_and_write_edges
    rw [hsl]
    show Except.ok (loopGo (groupKey first) first [] [] [] [] (first :: rest)) = _
    rw [loopGo_chunks]
    obtain ⟨t, cs, hshape⟩ := chunksOf_cons_shape first rest
    rw [hshape]
    simp [flushEdge, mkEdge, chunkList]

theorem chunksOf_flatten (l : List EdgeRecord) :
    ((chunksOf l).map chunkList).flatten = l := by
  induction l with
  | nil => rfl
  | cons x xs ih =>
    rw [chunksOf_cons]
    rcases hc : chunksOf xs with - | ⟨⟨y, ys⟩, cs⟩
    · rw [hc] at ih
      simp only [List.map_nil, List.flatten_nil] at ih
      simp [addChunk, chunkList, ih.symm]
    · rw [hc] at ih
      by_cases hm : groupKey x = groupKey y
      · simp only [addChunk, if_pos hm, List.map_cons, List.flatten_cons, chunkList,
          List.cons_append] at ih ⊢
        rw [ih]
      · simp only [addChunk, if_neg hm, List.map_cons, List.flatten_cons, chunkList,
          List.nil_append, List.cons_append] at ih ⊢
        rw [ih]

theorem chunksOf_key_const (l : List EdgeRecord) :
    ∀ c ∈ chunksOf l, ∀ e ∈ chunkList c, groupKey e = groupKey c.1 := by
  induction l with
  | nil => intro c hc; simp [chunksOf] at hc
  | cons x xs ih =>
    intro c hc e he
    rw [chunksOf_cons] at hc
    rcases hcx : chunksOf xs with - | ⟨⟨y, ys⟩, cs⟩
    · rw [hcx] at hc
      simp only [addChunk, List.mem_singleton] at hc
      subst hc
      simp only [chunkList, List.mem_singleton] at he
      subst he
      rfl
    · rw [hcx] at hc ih
      by_cases hm : groupKey x = groupKey y
      · simp only [addChunk, if_pos hm, List.mem_cons] at hc
        rcases hc with hc | hc
        · subst hc
          simp only [chunkList, List.mem_cons] at he
          rcases he with he | he
          · subst he; rfl
          · have := ih (y, ys) (List.mem_cons_self _ _) e
            simp only [chunkList, List.mem_cons] at this
            rcases he with he | he
            · subst he
              rw [this (Or.inl rfl), ← hm]
            · rw [this (Or.inr he), ← hm]
        · exact ih c (List.mem_cons_of_mem _ hc) e he
      · simp only [addChunk, if_neg hm, List.mem_cons] at hc
        rcases hc with hc | hc
        · subst hc
          simp only [chunkList, List.mem_cons, List.not_mem_nil, or_false] at he
          subst he
          rfl
        · exact ih c (List.mem_cons.mpr hc) e he

theorem chunksOf_chain_ne (l : List EdgeRecord) :
    List.Chain' (fun c1 c2 => groupKey c1.1 ≠ groupKey c2.1) (chunksOf l) := by
  induction l with
  | nil => simp [chunksOf]
  | cons x xs ih =>
    rw [chunksOf_cons]
    rcases hcx : chunksOf xs with - | ⟨⟨y, ys⟩, cs⟩
    · simp [addChunk]
    · rw [hcx] at ih
      by_cases hm : groupKey x = groupKey y
      · simp only [addChunk, if_pos hm]
        rcases cs with - | ⟨⟨z, zs⟩, cs2⟩
        · simp
        · rw [List.chain'_cons] at ih ⊢
          exact ⟨by rw [hm]; exact ih.1, ih.2⟩
      · simp only [addChunk, if_neg hm]
        rw [List.chain'_cons]
        exact ⟨hm, ih⟩

theorem chunksOf_heads_sublist (l : List EdgeRecord) :
    ((chunksOf l).map (fun c => c.1)).Sublist l := by
  induction l with
  | nil => simp [chunksOf]
  | cons x xs ih =>
    rw [chunksOf_cons]
    rcases hcx : chunksOf xs with - | ⟨⟨y, ys⟩, cs⟩
    · simp [addChunk]
    · rw [hcx] at ih
      by_cases hm : groupKey x = groupKey y
      · simp only [addChunk, if_pos hm, List.map_cons]
        simp only [List.map_cons] at ih
        have hcs : (cs.map (fun c => c.1)).Sublist xs :=
          (List.sublist_cons_self y (cs.map (fun c => c.1))).trans ih
        exact List.Sublist.cons₂ x hcs
      · simp only [addChunk, if_neg hm, List.map_cons]
        simp only [List.map_cons] at ih
        exact List.Sublist.cons₂ x ih

/-! ### Stability of the sort and sorted-permutation reasoning -/

/-- Membership test for the equivalence class of one sort key. -/
def inClass (k : String × String × String) (e : EdgeRecord) : Bool := sortKeyOf e == k

theorem inClass_iff {k : String × String × String} {e : EdgeRecord} :
    inClass k e = true ↔ sortKeyOf e = k := by
  simp [inClass]

/-- Subject, predicate and object triple of a record, in the order the
claims use: it carries the same information as the sort key. -/
def tripleOf (e : EdgeRecord) : String × String × String :=
  (e.subject, e.predicate, e.object)

theorem tripleOf_eq_iff {a b : EdgeRecord} : tripleOf a = tripleOf b ↔ sortKeyOf a = sortKeyOf b := by
  unfold tripleOf sortKeyOf
  constructor
  · intro h
    simp only [Prod.mk.injEq] at h ⊢
    exact ⟨h.1, h.2.2, h.2.1⟩
  · intro h
    simp only [Prod.mk.injEq] at h ⊢
    exact ⟨h.1, h.2.2, h.2.1⟩

theorem groupKey_eq_of_sortKey {a b : EdgeRecord} (h : sortKeyOf a = sortKeyOf b) :
    groupKey a = groupKey b := by
  unfold sortKeyOf at h
  simp only [Prod.mk.injEq] at h
  unfold groupKey
  rw [h.1, h.2.1, h.2.2]

theorem filter_orderedInsert (k : String × String × String) (a : EdgeRecord) :
    ∀ l : List EdgeRecord,
    (List.orderedInsert sortKeyLe a l).filter (inClass k) =
      if inClass k a then a :: l.filter (inClass k) else l.filter (inClass k)
  | [] => by
    by_cases hp : inClass k a
    · simp [List.orderedInsert, hp]
    · simp [List.orderedInsert, hp]
  | b :: l2 => by
    by_cases hr : sortKeyLe a b
    · rw [List.orderedInsert, if_pos hr]
      by_cases hp : inClass k a
      · rw [List.filter_cons_of_pos hp, if_pos hp]
      · rw [List.filter_cons_of_neg hp, if_neg hp]
    · rw [List.orderedInsert, if_neg hr]
      by_cases hp : inClass k a
      · have hpb : ¬ inClass k b = true := by
          intro hpb
          apply hr
          apply sortKeyLe_of_eq
          rw [inClass_iff.mp hp, inClass_iff.mp hpb]
        rw [List.filter_cons_of_neg hpb, List.filter_cons_of_neg hpb,
          filter_orderedInsert k a l2, if_pos hp]
      · by_cases hpb : inClass k b
        · rw [List.filter_cons_of_pos hpb, List.filter_cons_of_pos hpb,
            filter_orderedInsert k a l2, if_neg hp, if_neg hp]
        · rw [List.filter_cons_of_neg hpb, List.filter_cons_of_neg hpb,
            filter_orderedInsert k a l2, if_neg hp]

theorem filter_insertionSort (k : String × String × String) :
    ∀ l : List EdgeRecord,
    (List.insertionSort sortKeyLe l).filter (inClass k) = l.filter (inClass k)
  | [] => rfl
  | x :: l2 => by
    rw [List.insertionSort, filter_orderedInsert k x (List.insertionSort sortKeyLe l2)]
    by_cases hp : inClass k x
    · rw [if_pos hp, List.filter_cons_of_pos hp, filter_insertionSort k l2]
    · rw [if_neg hp, List.filter_cons_of_neg hp, filter_insertionSort k l2]

theorem sorted_eq_of_class_filters : ∀ (s1 s2 : List EdgeRecord),
    List.Pairwise sortKeyLe s1 → List.Pairwise sortKeyLe s2 →
    (∀ k, s1.filter (inClass k) = s2.filter (inClass k)) → s1 = s2
  | [], [], _, _, _ => rfl
  | [], b :: t2, _, _, hf => by
    have h := hf (sortKeyOf b)
    rw [List.filter_nil, List.filter_cons_of_pos (by rw [inClass_iff])] at h
    exact absurd h.symm (List.cons_ne_nil _ _)
  | a :: t1, [], _, _, hf => by
    have h := hf (sortKeyOf a)
    rw [List.filter_nil, List.filter_cons_of_pos (by rw [inClass_iff])] at h
    exact absurd h (List.cons_ne_nil _ _)
  | a :: t1, b :: t2, h1, h2, hf => by
    have hkey : sortKeyOf a = sortKeyOf b := by
      by_contra hne
      have hfa := hf (sortKeyOf a)
      have hfb := hf (sortKeyOf b)
      rw [List.filter_cons_of_pos (show inClass (sortKeyOf a) a = true by rw [inClass_iff]),
        List.filter_cons_of_neg
          (show ¬ inClass (sortKeyOf a) b = true by
            rw [inClass_iff]; exact fun h => hne h.symm)] at hfa
      rw [List.filter_cons_of_pos (show inClass (sortKeyOf b) b = true by rw [inClass_iff]),
        List.filter_cons_of_neg
          (show ¬ inClass (sortKeyOf b) a = true by rw [inClass_iff]; exact hne)] at hfb
      have hbt1 : b ∈ t1 := by
        have hm : b ∈ t1.filter (inClass (sortKeyOf b)) := by
          rw [hfb]
          exact List.mem_cons_self _ _
        exact List.mem_of_mem_filter hm
      have hat2 : a ∈ t2 := by
        have hm : a ∈ t2.filter (inClass (sortKeyOf a)) := by
          rw [← hfa]
          exact List.mem_cons_self _ _
        exact List.mem_of_mem_filter hm
      have hab : sortKeyLe a b := (List.pairwise_cons.mp h1).1 b hbt1
      have hba : sortKeyLe b a := (List.pairwise_cons.mp h2).1 a hat2
      exact hne (sortKeyLe_antisymm hab hba)
    have hfa := hf (sortKeyOf a)
    rw [List.filter_cons_of_pos (show inClass (sortKeyOf a) a = true by rw [inClass_iff]),
      List.filter_cons_of_pos
        (show inClass (sortKeyOf a) b = true by rw [inClass_iff]; exact hkey.symm)] at hfa
    injection hfa with hhead _
    subst hhead
    have htails : t1 = t2 := by
      apply sorted_eq_of_class_filters t1 t2 (List.pairwise_cons.mp h1).2
        (List.pairwise_cons.mp h2).2
      intro k
      have h := hf k
      by_cases hp : inClass k a
      · rw [List.filter_cons_of_pos hp, List.filter_cons_of_pos hp] at h
        injection h
      · rw [List.filter_cons_of_neg hp, List.filter_cons_of_neg hp] at h
        exact h
    rw [htails]

theorem mem_dropWhile_class : ∀ (t : List EdgeRecord) (x : EdgeRecord),
    List.Pairwise sortKeyLe (x :: t) →
    ∀ e ∈ t.dropWhile (inClass (sortKeyOf x)), sortKeyOf e ≠ sortKeyOf x
  | [], _, _, e, he => by simp [List.dropWhile] at he
  | c :: t2, x, hs, e, he => by
    by_cases hp : inClass (sortKeyOf x) c
    · rw [List.dropWhile_cons_of_pos hp] at he
      have hs2 : List.Pairwise sortKeyLe (x :: t2) := by
        have hsub : (x :: t2).Sublist (x :: c :: t2) :=
          List.Sublist.cons₂ x (List.sublist_cons_self c t2)
        exact hs.sublist hsub
      exact mem_dropWhile_class t2 x hs2 e he
    · rw [List.dropWhile_cons_of_neg hp] at he
      rcases List.mem_cons.mp he with he2 | he2
      · intro hc
        apply hp
        rw [inClass_iff, ← he2]
        exact hc
      · intro hc
        apply hp
        rw [inClass_iff]
        have hxc : sortKeyLe x c := (List.pairwise_cons.mp hs).1 c (List.mem_cons_self _ _)
        have hce : sortKeyLe c e := by
          have hct : List.Pairwise sortKeyLe (c :: t2) := (List.pairwise_cons.mp hs).2
          exact (List.pairwise_cons.mp hct).1 e he2
        have hex : sortKeyLe e x := sortKeyLe_of_eq hc
        have hcx : sortKeyLe c x := Trans.trans hce hex
        exact sortKeyLe_antisymm hcx hxc

theorem filter_class_head (x : EdgeRecord) (t : List EdgeRecord)
    (hs : List.Pairwise sortKeyLe (x :: t)) :
    (x :: t).filter (inClass (sortKeyOf x)) =
      x :: t.takeWhile (inClass (sortKeyOf x)) := by
  rw [List.filter_cons_of_pos (by rw [inClass_iff])]
  have hsplit : t = t.takeWhile (inClass (sortKeyOf x)) ++ t.dropWhile (inClass (sortKeyOf x)) :=
    (List.takeWhile_append_dropWhile _ _).symm
  have h1 : (t.takeWhile (inClass (sortKeyOf x))).filter (inClass (sortKeyOf x)) =
      t.takeWhile (inClass (sortKeyOf x)) := by
    rw [List.filter_eq_self]
    intro e he
    exact List.mem_takeWhile_imp he
  have h2 : (t.dropWhile (inClass (sortKeyOf x))).filter (inClass (sortKeyOf x)) = [] := by
    rw [List.filter_eq_nil_iff]
    intro e he hc
    exact mem_dropWhile_class t x hs e he (inClass_iff.mp hc)
  conv_lhs => rw [hsplit]
  rw [List.filter_append, h1, h2, List.append_nil]

/-- Prepends a run of records that all share the group key of its head
record onto a chunk decomposition, merging with the first chunk when the
keys agree. -/
def mergeBlock (h : EdgeRecord) (bt : List EdgeRecord) :
    List (EdgeRecord × List EdgeRecord) → List (EdgeRecord × List EdgeRecord)
  | [] => [(h, bt)]
  | (z, zs) :: cs =>
    if groupKey z = groupKey h then (h, bt ++ z :: zs) :: cs
    else (h, bt) :: (z, zs) :: cs

theorem chunksOf_block_append : ∀ (bt : List EdgeRecord) (h : EdgeRecord)
    (r : List EdgeRecord), (∀ e ∈ h :: bt, groupKey e = groupKey h) →
    chunksOf ((h :: bt) ++ r) = mergeBlock h bt (chunksOf r)
  | [], h, r, _ => by
    rw [List.cons_append, List.nil_append, chunksOf_cons]
    rcases hc : chunksOf r with - | ⟨⟨z, zs⟩, cs⟩
    · rfl
    · by_cases hm : groupKey h = groupKey z
      · simp only [addChunk, mergeBlock]
        rw [if_pos hm, if_pos hm.symm, List.nil_append]
      · have hmz : ¬ groupKey z = groupKey h := fun hc2 => hm hc2.symm
        simp only [addChunk, mergeBlock]
        rw [if_neg hm, if_neg hmz]
  | b :: bt2, h, r, hall => by
    have hb : groupKey b = groupKey h := hall b (List.mem_cons_of_mem _ (List.mem_cons_self _ _))
    have hall2 : ∀ e ∈ b :: bt2, groupKey e = groupKey b := by
      intro e hegg
      rw [hb]
      rcases List.mem_cons.mp hegg with h2 | h2
      · rw [h2, hb]
      · exact hall e (List.mem_cons_of_mem _ (List.mem_cons_of_mem _ h2))
    have hrec := chunksOf_block_append bt2 b r hall2
    rw [List.cons_append, chunksOf_cons] at hrec
    rw [List.cons_append, chunksOf_cons, List.cons_append, chunksOf_cons, hrec]
    rcases hc : chunksOf r with - | ⟨⟨z, zs⟩, cs⟩
    · simp only [addChunk, mergeBlock]
      rw [if_pos hb.symm]
    · by_cases hm : groupKey z = groupKey b
      · simp only [mergeBlock]
        rw [if_pos hm, if_pos (hm.trans hb)]
        simp only [addChunk]
        rw [if_pos hb.symm, List.cons_append]
      · simp only [mergeBlock]
        rw [if_neg hm, if_neg (fun hc2 => hm (hc2.trans hb.symm))]
        simp only [addChunk]
        rw [if_pos hb.symm]

theorem chunks_align : ∀ (n : Nat) (s1 s2 : List EdgeRecord), s1.length ≤ n → s1.Perm s2 →
    List.Pairwise sortKeyLe s1 → List.Pairwise sortKeyLe s2 →
    List.Forall₂
      (fun c1 c2 => sortKeyOf c1.1 = sortKeyOf c2.1 ∧ (chunkList c1).Perm (chunkList c2))
      (chunksOf s1) (chunksOf s2) := by
  intro n
  induction n with
  | zero =>
    intro s1 s2 hlen hp _ _
    have h1 : s1 = [] := List.eq_nil_of_length_eq_zero (Nat.le_zero.mp hlen)
    subst h1
    have h2 : s2 = [] := hp.nil_eq.symm
    subst h2
    exact List.Forall₂.nil
  | succ n ih =>
    intro s1 s2 hlen hp h1 h2
    rcases s1 with - | ⟨x, t1⟩
    · have h2e : s2 = [] := hp.nil_eq.symm
      subst h2e
      exact List.Forall₂.nil
    rcases s2 with - | ⟨y, t2⟩
    · exact absurd hp.symm.nil_eq.symm (List.cons_ne_nil x t1)
    have hkeys : (x :: t1).map sortKeyOf = (y :: t2).map sortKeyOf :=
      List.eq_of_perm_of_sorted (hp.map sortKeyOf)
        (List.pairwise_map.mpr (h1.imp (fun h => h)))
        (List.pairwise_map.mpr (h2.imp (fun h => h)))
    have hkey : sortKeyOf x = sortKeyOf y := by
      simp only [List.map_cons] at hkeys
      injection hkeys with hh _
    have hsplit1 : t1 = t1.takeWhile (inClass (sortKeyOf x)) ++
        t1.dropWhile (inClass (sortKeyOf x)) := (List.takeWhile_append_dropWhile _ _).symm
    have hsplit2 : t2 = t2.takeWhile (inClass (sortKeyOf x)) ++
        t2.dropWhile (inClass (sortKeyOf x)) := (List.takeWhile_append_dropWhile _ _).symm
    have hf1 : (x :: t1).filter (inClass (sortKeyOf x)) =
        x :: t1.takeWhile (inClass (sortKeyOf x)) := filter_class_head x t1 h1
    have hf2 : (y :: t2).filter (inClass (sortKeyOf x)) =
        y :: t2.takeWhile (inClass (sortKeyOf x)) := by
      have h := filter_class_head y t2 h2
      rw [← hkey] at h
      exact h
    have hblk : (x :: t1.takeWhile (inClass (sortKeyOf x))).Perm
        (y :: t2.takeWhile (inClass (sortKeyOf x))) := by
      rw [← hf1, ← hf2]
      exact hp.filter _
    have hpsplit : ((x :: t1.takeWhile (inClass (sortKeyOf x))) ++
        t1.dropWhile (inClass (sortKeyOf x))).Perm
        ((y :: t2.takeWhile (inClass (sortKeyOf x))) ++
          t2.dropWhile (inClass (sortKeyOf x))) := by
      rw [List.cons_append, List.cons_append, ← hsplit1, ← hsplit2]
      exact hp
    have hr : (t1.dropWhile (inClass (sortKeyOf x))).Perm
        (t2.dropWhile (inClass (sortKeyOf x))) := by
      have step : ((x :: t1.takeWhile (inClass (sortKeyOf x))) ++
          t1.dropWhile (inClass (sortKeyOf x))).Perm
          ((x :: t1.takeWhile (inClass (sortKeyOf x))) ++
            t2.dropWhile (inClass (sortKeyOf x))) :=
        hpsplit.trans (hblk.symm.append_right _)
      exact (List.perm_append_left_iff _).mp step
    have hs1r : List.Pairwise sortKeyLe (t1.dropWhile (inClass (sortKeyOf x))) :=
      h1.sublist ((List.dropWhile_sublist _).trans (List.sublist_cons_self x t1))
    have hs2r : List.Pairwise sortKeyLe (t2.dropWhile (inClass (sortKeyOf x))) :=
      h2.sublist ((List.dropWhile_sublist _).trans (List.sublist_cons_self y t2))
    have hlenr : (t1.dropWhile (inClass (sortKeyOf x))).length ≤ n := by
      have hd : (t1.dropWhile (inClass (sortKeyOf x))).length ≤ t1.length :=
        List.Sublist.length_le (List.dropWhile_sublist _)
      have ht : t1.length + 1 ≤ n + 1 := by
        simpa [List.length_cons] using hlen
      omega
    have ihr := ih (t1.dropWhile (inClass (sortKeyOf x)))
      (t2.dropWhile (inClass (sortKeyOf x))) hlenr hr hs1r hs2r
    have hall1 : ∀ e ∈ x :: t1.takeWhile (inClass (sortKeyOf x)), groupKey e = groupKey x := by
      intro e he
      rcases List.mem_cons.mp he with he2 | he2
      · rw [he2]
      · exact groupKey_eq_of_sortKey (inClass_iff.mp (List.mem_takeWhile_imp he2))
    have hall2 : ∀ e ∈ y :: t2.takeWhile (inClass (sortKeyOf x)), groupKey e = groupKey y := by
      intro e he
      rcases List.mem_cons.mp he with he2 | he2
      · rw [he2]
      · apply groupKey_eq_of_sortKey
        rw [inClass_iff.mp (List.mem_takeWhile_imp he2), hkey]
    have hc1 : chunksOf (x :: t1) = mergeBlock x (t1.takeWhile (inClass (sortKeyOf x)))
        (chunksOf (t1.dropWhile (inClass (sortKeyOf x)))) := by
      conv_lhs => rw [hsplit1]
      rw [← List.cons_append]
      exact chunksOf_block_append _ x _ hall1
    have hc2 : chunksOf (y :: t2) = mergeBlock y (t2.takeWhile (inClass (sortKeyOf x)))
        (chunksOf (t2.dropWhile (inClass (sortKeyOf x)))) := by
      conv_lhs => rw [hsplit2]
      rw [← List.cons_append]
      exact chunksOf_block_append _ y _ hall2
    rw [hc1, hc2]
    have hgxy : groupKey x = groupKey y := groupKey_eq_of_sortKey hkey
    rcases hx : chunksOf (t1.dropWhile (inClass (sortKeyOf x))) with - | ⟨⟨z1, zs1⟩, cs1⟩
    · rw [hx] at ihr
      rcases hy : chunksOf (t2.dropWhile (inClass (sortKeyOf x))) with - | ⟨⟨z2, zs2⟩, cs2⟩
      · simp only [mergeBlock]
        exact List.Forall₂.cons ⟨hkey, hblk⟩ List.Forall₂.nil
      · rw [hy] at ihr
        cases ihr
    · rw [hx] at ihr
      rcases hy : chunksOf (t2.dropWhile (inClass (sortKeyOf x))) with - | ⟨⟨z2, zs2⟩, cs2⟩
      · rw [hy] at ihr
        cases ihr
      · rw [hy] at ihr
        rcases ihr with - | ⟨⟨hkz, hpz⟩, htl⟩
        by_cases hmz : groupKey z1 = groupKey x
        · have hmz2 : groupKey z2 = groupKey y := by
            rw [← groupKey_eq_of_sortKey hkz, ← hgxy]
            exact hmz
          simp only [mergeBlock]
          rw [if_pos hmz, if_pos hmz2]
          apply List.Forall₂.cons _ htl
          refine ⟨hkey, ?_⟩
          simp only [chunkList]
          rw [show x :: (t1.takeWhile (inClass (sortKeyOf x)) ++ z1 :: zs1) =
              (x :: t1.takeWhile (inClass (sortKeyOf x))) ++ (z1 :: zs1) from rfl,
            show y :: (t2.takeWhile (inClass (sortKeyOf x)) ++ z2 :: zs2) =
              (y :: t2.takeWhile (inClass (sortKeyOf x))) ++ (z2 :: zs2) from rfl]
          exact hblk.append hpz
        · have hmz2 : ¬ groupKey z2 = groupKey y := by
            rw [← groupKey_eq_of_sortKey hkz, ← hgxy]
            exact hmz
          simp only [mergeBlock]
          rw [if_neg hmz, if_neg hmz2]
          exact List.Forall₂.cons ⟨hkey, hblk⟩ (List.Forall₂.cons ⟨hkz, hpz⟩ htl)

/-! ### Derived facts feeding the claims -/

/-- Triple view of a coalesced edge in (subject, predicate, object) order. -/
def edgeTriple (c : CoalescedEdge) : String × String × String :=
  (c.subject, c.predicate, c.object)

/-- Position-aligned view of the three property arrays of a coalesced edge:
the observation recorded at each shared index. -/
def valueTriples (c : CoalescedEdge) : List (String × PyFloat × PyFloat) :=
  c.expressed_in.zip (c.p_value.zip c.slope)

theorem zip_map_triple : ∀ rs : List EdgeRecord,
    (rs.map EdgeRecord.expressed_in).zip
      ((rs.map EdgeRecord.p_value).zip (rs.map EdgeRecord.slope)) =
      rs.map (fun e => (e.expressed_in, e.p_value, e.slope))
  | [] => rfl
  | e :: rs => by
    simp only [List.map_cons, List.zip_cons_cons]
    rw [zip_map_triple rs]

theorem valueTriples_mkEdge (c : EdgeRecord × List EdgeRecord) :
    valueTriples (mkEdge c) = (chunkList c).map (fun e => (e.expressed_in, e.p_value, e.slope)) := by
  unfold valueTriples mkEdge
  exact zip_map_triple (chunkList c)

theorem edgeTriple_mkEdge (c : EdgeRecord × List EdgeRecord) :
    edgeTriple (mkEdge c) = tripleOf c.1 := rfl

theorem map_edgeTriple_map_mkEdge (cs : List (EdgeRecord × List EdgeRecord)) :
    (cs.map mkEdge).map edgeTriple = (cs.map (fun ch => ch.1)).map tripleOf := by
  rw [List.map_map, List.map_map]
  rfl

theorem pairwise_triple_ne : ∀ (hs : List EdgeRecord), List.Pairwise sortKeyLe hs →
    List.Chain' (fun a b => groupKey a ≠ groupKey b) hs →
    List.Pairwise (fun a b => tripleOf a ≠ tripleOf b) hs
  | [], _, _ => List.Pairwise.nil
  | [a], _, _ => by simp
  | a :: c :: rest, hsort, hchain => by
    have ha := (List.pairwise_cons.mp hsort).1
    have hsort2 := (List.pairwise_cons.mp hsort).2
    have hac : groupKey a ≠ groupKey c := (List.chain'_cons.mp hchain).1
    have hchain2 := (List.chain'_cons.mp hchain).2
    have ih := pairwise_triple_ne (c :: rest) hsort2 hchain2
    refine List.pairwise_cons.mpr ⟨?_, ih⟩
    intro b hb heq
    have hkab : sortKeyOf a = sortKeyOf b := tripleOf_eq_iff.mp heq
    rcases List.mem_cons.mp hb with hb2 | hb2
    · apply hac
      apply groupKey_eq_of_sortKey
      rw [hkab, hb2]
    · have hcb : sortKeyLe c b := (List.pairwise_cons.mp hsort2).1 b hb2
      have hba : sortKeyLe b a := sortKeyLe_of_eq hkab.symm
      have hca : sortKeyLe c a := Trans.trans hcb hba
      have hacle : sortKeyLe a c := ha c (List.mem_cons_self _ _)
      exact hac (groupKey_eq_of_sortKey (sortKeyLe_antisymm hacle hca))

theorem mem_of_mem_sorted {e : EdgeRecord} {l : List EdgeRecord}
    (h : e ∈ List.insertionSort sortKeyLe l) : e ∈ l :=
  (List.perm_insertionSort sortKeyLe l).subset h

theorem mem_chunk_exists {e : EdgeRecord} {l : List EdgeRecord} (h : e ∈ l) :
    ∃ ch ∈ chunksOf l, e ∈ chunkList ch := by
  have hf : e ∈ ((chunksOf l).map chunkList).flatten := by
    rw [chunksOf_flatten]
    exact h
  rcases List.mem_flatten.mp hf with ⟨ll, hll, hel⟩
  rcases List.mem_map.mp hll with ⟨ch, hch, rfl⟩
  exact ⟨ch, hch, hel⟩

theorem chunk_head_mem {ch : EdgeRecord × List EdgeRecord} {l : List EdgeRecord}
    (h : ch ∈ chunksOf l) : ch.1 ∈ l := by
  have hm : ch.1 ∈ (chunksOf l).map (fun c => c.1) := List.mem_map_of_mem _ h
  exact (chunksOf_heads_sublist l).subset hm

/-! ### Claim C1 -/

/-- Claim C1 read literally at one accumulated edge list: coalescing
succeeds and emits exactly one edge per distinct (subject, predicate,
object) triple of the input, no triple twice, none omitted, none merged. -/
def claimC1At (l : List EdgeRecord) : Prop :=
  ∃ out, coalesce_and_write_edges l = Except.ok out ∧
    (out.map edgeTriple).Nodup ∧
    ∀ t, t ∈ l.map tripleOf ↔ t ∈ out.map edgeTriple

/-- First record of the group-key collision pair: subject A, object C,
predicate BX, so the concatenated group key is ABXC. -/
def collisionRecordOne : EdgeRecord :=
  ⟨"A", "C", "BX", "t1", ⟨1, 0⟩, ⟨1, 0⟩⟩

/-- Second record of the group-key collision pair: subject AB, object C,
predicate X, a different triple with the same concatenated group key
ABXC. -/
def collisionRecordTwo : EdgeRecord :=
  ⟨"AB", "C", "X", "t2", ⟨1, 0⟩, ⟨1, 0⟩⟩

theorem coalesce_collision_pair :
    coalesce_and_write_edges [collisionRecordOne, collisionRecordTwo] =
      Except.ok [⟨"A", "C", "BX", ["t1", "t2"], [⟨1, 0⟩, ⟨1, 0⟩], [⟨1, 0⟩, ⟨1, 0⟩]⟩] := rfl

/-- C1 counterexample: on an accumulator holding two records with distinct
(subject, predicate, object) triples whose concatenated group keys
coincide (subject A, predicate BX, object C versus subject AB, predicate
X, object C, both concatenating to ABXC), coalesce_and_write_edges merges
the two triples into a single emitted edge, so the second triple is
omitted and the claim fails as stated. -/
theorem gtex_c1_counterexample : ¬ claimC1At [collisionRecordOne, collisionRecordTwo] := by
  intro hcl
  rcases hcl with ⟨out, hok, _, hiff⟩
  rw [coalesce_collision_pair] at hok
  injection hok with hout
  have hmem : ("AB", "X", "C") ∈
      [collisionRecordOne, collisionRecordTwo].map tripleOf := by decide
  have := (hiff ("AB", "X", "C")).mp hmem
  rw [← hout] at this
  exact absurd this (by decide)

/-- C1 amended: for every non-empty accumulated edge list in which no two
records with distinct (subject, predicate, object) triples share the same
concatenated subject + predicate + object group key, coalesce_and_write_edges
emits exactly one coalesced edge per distinct triple present in the
accumulator: the emitted triples are duplicate free and are exactly the
triples of the input records. -/
theorem gtex_c1_exactly_one_edge_per_triple (l : List EdgeRecord) (hne : l ≠ [])
    (hinj : ∀ e1 ∈ l, ∀ e2 ∈ l, groupKey e1 = groupKey e2 → tripleOf e1 = tripleOf e2) :
    ∃ out, coalesce_and_write_edges l = Except.ok out ∧
      (out.map edgeTriple).Nodup ∧
      ∀ t, t ∈ l.map tripleOf ↔ t ∈ out.map edgeTriple := by
  refine ⟨(chunksOf (List.insertionSort sortKeyLe l)).map mkEdge, coalesce_spec l hne, ?_, ?_⟩
  · rw [map_edgeTriple_map_mkEdge]
    have hsorted : List.Pairwise sortKeyLe (List.insertionSort sortKeyLe l) :=
      List.sorted_insertionSort sortKeyLe l
    have hheads : List.Pairwise sortKeyLe
        ((chunksOf (List.insertionSort sortKeyLe l)).map (fun c => c.1)) :=
      hsorted.sublist (chunksOf_heads_sublist _)
    have hchain : List.Chain' (fun a b => groupKey a ≠ groupKey b)
        ((chunksOf (List.insertionSort sortKeyLe l)).map (fun c => c.1)) := by
      rw [List.chain'_map]
      exact chunksOf_chain_ne _
    have hne2 := pairwise_triple_ne _ hheads hchain
    exact (List.pairwise_map).mpr hne2
  · intro t
    rw [map_edgeTriple_map_mkEdge]
    constructor
    · intro ht
      rcases List.mem_map.mp ht with ⟨e, hel, rfl⟩
      have hesl : e ∈ List.insertionSort sortKeyLe l :=
        (List.perm_insertionSort sortKeyLe l).symm.subset hel
      rcases mem_chunk_exists hesl with ⟨ch, hch, hech⟩
      have hgk : groupKey e = groupKey ch.1 := chunksOf_key_const _ ch hch e hech
      have hhl : ch.1 ∈ l := mem_of_mem_sorted (chunk_head_mem hch)
      have htr : tripleOf e = tripleOf ch.1 := hinj e hel ch.1 hhl hgk
      rw [htr]
      exact List.mem_map_of_mem tripleOf (List.mem_map_of_mem (fun c => c.1) hch)
    · intro ht
      rcases List.mem_map.mp ht with ⟨h0, hh0, rfl⟩
      rcases List.mem_map.mp hh0 with ⟨ch, hch, rfl⟩
      have hhl : ch.1 ∈ l := mem_of_mem_sorted (chunk_head_mem hch)
      exact List.mem_map_of_mem tripleOf hhl

/-- Witness for the amended C1 on a concrete collision-free accumulator. -/
theorem gtex_c1_exactly_one_edge_per_triple_witness :
    ∃ out, coalesce_and_write_edges
        [⟨"HGVS:a", "ENSEMBL:g1", "CTD:increases_expression_of", "t1", ⟨1, 0⟩, ⟨2, 0⟩⟩,
         ⟨"HGVS:a", "ENSEMBL:g1", "CTD:increases_expression_of", "t2", ⟨3, 0⟩, ⟨4, 0⟩⟩,
         ⟨"HGVS:b", "ENSEMBL:g2", "CTD:decreases_expression_of", "t3", ⟨5, 0⟩, ⟨6, 0⟩⟩] =
        Except.ok out ∧
      (out.map edgeTriple).Nodup ∧
      ∀ t, t ∈ ([⟨"HGVS:a", "ENSEMBL:g1", "CTD:increases_expression_of", "t1", ⟨1, 0⟩, ⟨2, 0⟩⟩,
         ⟨"HGVS:a", "ENSEMBL:g1", "CTD:increases_expression_of", "t2", ⟨3, 0⟩, ⟨4, 0⟩⟩,
         ⟨"HGVS:b", "ENSEMBL:g2", "CTD:decreases_expression_of", "t3", ⟨5, 0⟩,
           ⟨6, 0⟩⟩] : List EdgeRecord).map tripleOf ↔ t ∈ out.map edgeTriple :=
  gtex_c1_exactly_one_edge_per_triple _ (by decide) (by decide)

/-! ### Claim C3 -/

theorem forall2_map_mkEdge {R : CoalescedEdge → CoalescedEdge → Prop}
    {cs1 cs2 : List (EdgeRecord × List EdgeRecord)}
    (h : List.Forall₂ (fun c1 c2 => R (mkEdge c1) (mkEdge c2)) cs1 cs2) :
    List.Forall₂ R (cs1.map mkEdge) (cs2.map mkEdge) := by
  induction h with
  | nil => exact List.Forall₂.nil
  | cons hr _ ih => exact List.Forall₂.cons hr ih

theorem inClass_eq_triple_test (k : String × String × String) (e : EdgeRecord) :
    inClass k e = (tripleOf e == (k.1, k.2.2, k.2.1)) := by
  rcases k with ⟨s, o, p⟩
  rcases heq : tripleOf e == (s, p, o) with - | -
  · rw [beq_eq_false_iff_ne] at heq
    rw [Bool.eq_false_iff]
    intro hc
    apply heq
    have hk := inClass_iff.mp hc
    unfold sortKeyOf at hk
    unfold tripleOf
    simp only [Prod.mk.injEq] at hk ⊢
    exact ⟨hk.1, hk.2.2, hk.2.1⟩
  · rw [beq_iff_eq] at heq
    rw [inClass_iff]
    unfold tripleOf at heq
    unfold sortKeyOf
    simp only [Prod.mk.injEq] at heq ⊢
    exact ⟨heq.1, heq.2.2, heq.2.1⟩

/-- C3: coalescing is order-invariant.  For permuted accumulators the two
runs succeed and emit coalesced edges that match position by position:
same subject, object and predicate, and the same multiset of aligned
(anatomy, p-value, slope) observations.  Moreover, when the two inputs
also list the records of every (subject, predicate, object) triple in the
same relative order, the outputs are identical, so intra-group element
order is determined only by the relative order of same-key records. -/
theorem gtex_c3_order_invariance (l1 l2 : List EdgeRecord) (hp : l1.Perm l2) (hne : l1 ≠ []) :
    ∃ out1 out2, coalesce_and_write_edges l1 = Except.ok out1 ∧
      coalesce_and_write_edges l2 = Except.ok out2 ∧
      List.Forall₂ (fun c1 c2 => c1.subject = c2.subject ∧ c1.object = c2.object ∧
        c1.predicate = c2.predicate ∧ (valueTriples c1).Perm (valueTriples c2)) out1 out2 ∧
      ((∀ t, l1.filter (fun e => tripleOf e == t) = l2.filter (fun e => tripleOf e == t)) →
        out1 = out2) := by
  have hne2 : l2 ≠ [] := by
    intro hc
    subst hc
    exact hne hp.symm.nil_eq.symm
  refine ⟨(chunksOf (List.insertionSort sortKeyLe l1)).map mkEdge,
    (chunksOf (List.insertionSort sortKeyLe l2)).map mkEdge,
    coalesce_spec l1 hne, coalesce_spec l2 hne2, ?_, ?_⟩
  · have hsp : (List.insertionSort sortKeyLe l1).Perm (List.insertionSort sortKeyLe l2) :=
      ((List.perm_insertionSort sortKeyLe l1).trans hp).trans
        (List.perm_insertionSort sortKeyLe l2).symm
    have halign := chunks_align (List.insertionSort sortKeyLe l1).length
      (List.insertionSort sortKeyLe l1) (List.insertionSort sortKeyLe l2) le_rfl hsp
      (List.sorted_insertionSort sortKeyLe l1) (List.sorted_insertionSort sortKeyLe l2)
    apply forall2_map_mkEdge
    apply halign.imp
    intro c1 c2 hc
    rcases hc with ⟨hk, hperm⟩
    have hk2 := hk
    unfold sortKeyOf at hk2
    simp only [Prod.mk.injEq] at hk2
    refine ⟨hk2.1, hk2.2.1, hk2.2.2, ?_⟩
    rw [valueTriples_mkEdge, valueTriples_mkEdge]
    exact hperm.map _
  · intro hfilters
    have hclass : ∀ k, l1.filter (inClass k) = l2.filter (inClass k) := by
      intro k
      have h1 : l1.filter (inClass k) = l1.filter (fun e => tripleOf e == (k.1, k.2.2, k.2.1)) :=
        List.filter_congr (fun e _ => inClass_eq_triple_test k e)
      have h2 : l2.filter (inClass k) = l2.filter (fun e => tripleOf e == (k.1, k.2.2, k.2.1)) :=
        List.filter_congr (fun e _ => inClass_eq_triple_test k e)
      rw [h1, h2]
      exact hfilters (k.1, k.2.2, k.2.1)
    have hsorteq : List.insertionSort sortKeyLe l1 = List.insertionSort sortKeyLe l2 := by
      apply sorted_eq_of_class_filters _ _ (List.sorted_insertionSort sortKeyLe l1)
        (List.sorted_insertionSort sortKeyLe l2)
      intro k
      rw [filter_insertionSort, filter_insertionSort]
      exact hclass k
    rw [hsorteq]

/-- Witness for C3 on a concrete two-record accumulator and its swap. -/
theorem gtex_c3_order_invariance_witness :
    ∃ out1 out2,
      coalesce_and_write_edges
          [⟨"HGVS:a", "ENSEMBL:g1", "P", "t1", ⟨1, 0⟩, ⟨2, 0⟩⟩,
           ⟨"HGVS:b", "ENSEMBL:g2", "Q", "t2", ⟨3, 0⟩, ⟨4, 0⟩⟩] = Except.ok out1 ∧
      coalesce_and_write_edges
          [⟨"HGVS:b", "ENSEMBL:g2", "Q", "t2", ⟨3, 0⟩, ⟨4, 0⟩⟩,
           ⟨"HGVS:a", "ENSEMBL:g1", "P", "t1", ⟨1, 0⟩, ⟨2, 0⟩⟩] = Except.ok out2 ∧
      List.Forall₂ (fun c1 c2 => c1.subject = c2.subject ∧ c1.object = c2.object ∧
        c1.predicate = c2.predicate ∧ (valueTriples c1).Perm (valueTriples c2)) out1 out2 ∧
      ((∀ t, [⟨"HGVS:a", "ENSEMBL:g1", "P", "t1", ⟨1, 0⟩, ⟨2, 0⟩⟩,
           ⟨"HGVS:b", "ENSEMBL:g2", "Q", "t2", ⟨3, 0⟩,
             ⟨4, 0⟩⟩].filter (fun e => tripleOf e == t) =
          [⟨"HGVS:b", "ENSEMBL:g2", "Q", "t2", ⟨3, 0⟩, ⟨4, 0⟩⟩,
           ⟨"HGVS:a", "ENSEMBL:g1", "P", "t1", ⟨1, 0⟩,
             ⟨2, 0⟩⟩].filter (fun e => tripleOf e == t)) → out1 = out2) :=
  gtex_c3_order_invariance _ _
    (List.Perm.swap (⟨"HGVS:b", "ENSEMBL:g2", "Q", "t2", ⟨3, 0⟩, ⟨4, 0⟩⟩ : EdgeRecord)
      (⟨"HGVS:a", "ENSEMBL:g1", "P", "t1", ⟨1, 0⟩, ⟨2, 0⟩⟩ : EdgeRecord) []) (by decide)

/-! ### Claims C4 and C9 -/

/-- C4: every coalesced edge written by coalesce_and_write_edges carries
three property arrays of identical length, and the arrays are the three
projections of one list of originating edge records from the accumulator,
so position i across the arrays refers to a single original record. -/
theorem gtex_c4_parallel_arrays (l : List EdgeRecord) (out : List CoalescedEdge)
    (c : CoalescedEdge) (hok : coalesce_and_write_edges l = Except.ok out) (hc : c ∈ out) :
    c.expressed_in.length = c.p_value.length ∧ c.p_value.length = c.slope.length ∧
    ∃ rs : List EdgeRecord, rs ≠ [] ∧ (∀ r ∈ rs, r ∈ l) ∧
      c.expressed_in = rs.map EdgeRecord.expressed_in ∧
      c.p_value = rs.map EdgeRecord.p_value ∧
      c.slope = rs.map EdgeRecord.slope := by
  have hne : l ≠ [] := by
    intro hnil
    subst hnil
    rw [show coalesce_and_write_edges [] = Except.error () from rfl] at hok
    cases hok
  rw [coalesce_spec l hne] at hok
  injection hok with hout
  rw [← hout] at hc
  rcases List.mem_map.mp hc with ⟨ch, hch, rfl⟩
  refine ⟨by simp [mkEdge], by simp [mkEdge], chunkList ch, List.cons_ne_nil _ _, ?_, rfl, rfl, rfl⟩
  intro r hr
  have hrsl : r ∈ List.insertionSort sortKeyLe l := by
    have hf : r ∈ ((chunksOf (List.insertionSort sortKeyLe l)).map chunkList).flatten :=
      List.mem_flatten.mpr ⟨chunkList ch, List.mem_map_of_mem chunkList hch, hr⟩
    rw [chunksOf_flatten] at hf
    exact hf
  exact mem_of_mem_sorted hrsl

/-- Witness for C4 on a concrete accumulator with a two-record group. -/
theorem gtex_c4_parallel_arrays_witness :
    (["t1", "t2"] : List String).length = ([⟨1, 0⟩, ⟨3, 0⟩] : List PyFloat).length ∧
    ([⟨1, 0⟩, ⟨3, 0⟩] : List PyFloat).length = ([⟨2, 0⟩, ⟨4, 0⟩] : List PyFloat).length ∧
    ∃ rs : List EdgeRecord, rs ≠ [] ∧
      (∀ r ∈ rs, r ∈ [⟨"HGVS:a", "ENSEMBL:g1", "P", "t1", ⟨1, 0⟩, ⟨2, 0⟩⟩,
        ⟨"HGVS:a", "ENSEMBL:g1", "P", "t2", ⟨3, 0⟩, ⟨4, 0⟩⟩]) ∧
      (["t1", "t2"] : List String) = rs.map EdgeRecord.expressed_in ∧
      ([⟨1, 0⟩, ⟨3, 0⟩] : List PyFloat) = rs.map EdgeRecord.p_value ∧
      ([⟨2, 0⟩, ⟨4, 0⟩] : List PyFloat) = rs.map EdgeRecord.slope := by
  have h := gtex_c4_parallel_arrays
    [⟨"HGVS:a", "ENSEMBL:g1", "P", "t1", ⟨1, 0⟩, ⟨2, 0⟩⟩,
     ⟨"HGVS:a", "ENSEMBL:g1", "P", "t2", ⟨3, 0⟩, ⟨4, 0⟩⟩]
    [⟨"HGVS:a", "ENSEMBL:g1", "P", ["t1", "t2"], [⟨1, 0⟩, ⟨3, 0⟩], [⟨2, 0⟩, ⟨4, 0⟩]⟩]
    ⟨"HGVS:a", "ENSEMBL:g1", "P", ["t1", "t2"], [⟨1, 0⟩, ⟨3, 0⟩], [⟨2, 0⟩, ⟨4, 0⟩]⟩
    rfl (List.mem_singleton.mpr rfl)
  exact h

/-- C9: calling coalesce_and_write_edges with an empty accumulated edge
list raises an uncaught IndexError while priming the first record (the
subscript self.edge_list[0]), modelled by Except.error, instead of
emitting zero edges. -/
theorem gtex_c9_empty_accumulator_raises :
    coalesce_and_write_edges [] = Except.error () := rfl

/-! ### Claim C7 -/

/-- C7: for tuples whose p-value and slope texts parse, create_edge on the
splicing dataset always assigns the fixed affects-splicing predicate, and
on the standard dataset assigns the increases-expression predicate exactly
when the slope read as a number is strictly greater than zero, with zero
and negative slopes both assigned the decreases-expression predicate. -/
theorem gtex_c7_predicate_rule (anatomyId variantId geneId pValue slope : String)
    (pv sv : PyFloat) (hp : pyFloatOfString pValue = some pv)
    (hs : pyFloatOfString slope = some sv) :
    (create_edge anatomyId variantId geneId pValue slope true =
      Except.ok ⟨variantId, geneId, "CTD:affects_splicing_of", anatomyId, pv, sv⟩) ∧
    (0 < sv.toRat →
      create_edge anatomyId variantId geneId pValue slope false =
        Except.ok ⟨variantId, geneId, "CTD:increases_expression_of", anatomyId, pv, sv⟩) ∧
    (sv.toRat ≤ 0 →
      create_edge anatomyId variantId geneId pValue slope false =
        Except.ok ⟨variantId, geneId, "CTD:decreases_expression_of", anatomyId, pv, sv⟩) := by
  refine ⟨?_, ?_, ?_⟩
  · simp [create_edge, hp, hs]
  · intro hpos
    have hb : sv.isPos = true := (PyFloat.isPos_iff_toRat_pos sv).mpr hpos
    simp [create_edge, hp, hs, hb]
  · intro hle
    have hb : sv.isPos = false := by
      rw [Bool.eq_false_iff]
      intro hc
      have := (PyFloat.isPos_iff_toRat_pos sv).mp hc
      linarith
    simp [create_edge, hp, hs, hb]

/-- Witness for C7 at the boundary slope 0.0 and at a positive slope. -/
theorem gtex_c7_predicate_rule_witness :
    (create_edge "UBERON:0002190" "HGVS:v" "ENSEMBL:g" "0.01" "0.0" false =
      Except.ok ⟨"HGVS:v", "ENSEMBL:g", "CTD:decreases_expression_of", "UBERON:0002190",
        ⟨1, -2⟩, ⟨0, -1⟩⟩) ∧
    (create_edge "UBERON:0002190" "HGVS:v" "ENSEMBL:g" "0.01" "2.5" false =
      Except.ok ⟨"HGVS:v", "ENSEMBL:g", "CTD:increases_expression_of", "UBERON:0002190",
        ⟨1, -2⟩, ⟨25, -1⟩⟩) ∧
    (create_edge "UBERON:0002190" "HGVS:v" "ENSEMBL:g" "0.01" "-1.5" true =
      Except.ok ⟨"HGVS:v", "ENSEMBL:g", "CTD:affects_splicing_of", "UBERON:0002190",
        ⟨1, -2⟩, ⟨-15, -1⟩⟩) :=
  ⟨(gtex_c7_predicate_rule "UBERON:0002190" "HGVS:v" "ENSEMBL:g" "0.01" "0.0"
      ⟨1, -2⟩ ⟨0, -1⟩ (by decide) (by decide)).2.2 (by simp [PyFloat.toRat]),
   (gtex_c7_predicate_rule "UBERON:0002190" "HGVS:v" "ENSEMBL:g" "0.01" "2.5"
      ⟨1, -2⟩ ⟨25, -1⟩ (by decide) (by decide)).2.1
     ((PyFloat.isPos_iff_toRat_pos ⟨25, -1⟩).mp (by decide)),
   (gtex_c7_predicate_rule "UBERON:0002190" "HGVS:v" "ENSEMBL:g" "0.01" "-1.5"
      ⟨1, -2⟩ ⟨-15, -1⟩ (by decide) (by decide)).1⟩

/-! ### Claim C5 -/

/-- Outcome of the conversion attempt performed by process_variant on a
fresh token: error models the IndexError or ValueError raised while
splitting the token, some h a truthy HGVS expression, and none a falsy
conversion result (Python None or the empty string). -/
def gtexConversion (conv : HgvsConv) (tok : String) : Except Unit (Option String) :=
  match variantComponents tok with
  | none => Except.error ()
  | some (c, n, r, a, g) =>
    match conv c n r a g "p1" with
    | some hgvs => if hgvs = "" then Except.ok none else Except.ok (some hgvs)
    | none => Except.ok none

/-- Sequence of repeated process_variant calls with the same token,
threading the loader state and collecting the returned variant ids. -/
def callVariantN (conv : HgvsConv) (st : LoaderState) (tok : String) :
    Nat → Except Unit (List (Option String) × LoaderState)
  | 0 => Except.ok ([], st)
  | n + 1 =>
    match callVariantN conv st tok n with
    | Except.error e => Except.error e
    | Except.ok (rs, st1) =>
      match process_variant conv st1 tok with
      | Except.error e => Except.error e
      | Except.ok (r, st2) => Except.ok (rs ++ [r], st2)

theorem assocFind_append_self {α : Type} {tok : String} (v : α) :
    ∀ l : List (String × α), assocFind l tok = none →
    assocFind (l ++ [(tok, v)]) tok = some v
  | [], _ => by simp [assocFind]
  | p :: l, h => by
    unfold assocFind at h ⊢
    rw [List.cons_append]
    by_cases hq : p.1 == tok
    · rw [if_pos hq] at h
      cases h
    · rw [if_neg hq] at h
      show (if p.1 == tok then some p.2 else assocFind (l ++ [(tok, v)]) tok) = some v
      rw [if_neg hq]
      exact assocFind_append_self v l h

theorem process_variant_cached {conv : HgvsConv} {st : LoaderState} {tok : String}
    {v : Option String} (h : assocFind st.varLookup tok = some v) :
    process_variant conv st tok = Except.ok (v, st) := by
  unfold process_variant
  rw [h]

theorem process_variant_fresh_succ {conv : HgvsConv} {st : LoaderState} {tok : String}
    {h : String} (hfresh : assocFind st.varLookup tok = none)
    (hconv : gtexConversion conv tok = Except.ok (some h)) :
    process_variant conv st tok = Except.ok (some (HGVSPrefix ++ ":" ++ h),
      { st with varLookup := st.varLookup ++ [(tok, some (HGVSPrefix ++ ":" ++ h))],
                nodesWritten := st.nodesWritten ++
                  [⟨HGVSPrefix ++ ":" ++ h, h, [sequenceVariantType]⟩] }) := by
  unfold gtexConversion at hconv
  unfold process_variant
  rw [hfresh]
  rcases hvc : variantComponents tok with - | ⟨c0, n0, r0, a0, g0⟩
  · simp only [hvc] at hconv
    cases hconv
  · simp only [hvc] at hconv ⊢
    rcases hcv : conv c0 n0 r0 a0 g0 "p1" with - | h0
    · simp only [hcv] at hconv
      cases hconv
    · simp only [hcv] at hconv ⊢
      by_cases hz : h0 = ""
      · rw [if_pos hz] at hconv
        cases hconv
      · rw [if_neg hz] at hconv
        injection hconv with hq
        injection hq with hq2
        subst hq2
        rw [if_neg hz]

theorem process_variant_fresh_fail {conv : HgvsConv} {st : LoaderState} {tok : String}
    (hfresh : assocFind st.varLookup tok = none)
    (hconv : gtexConversion conv tok = Except.ok none) :
    process_variant conv st tok = Except.ok (none,
      { st with varLookup := st.varLookup ++ [(tok, none)],
                failedConversions := st.failedConversions ++ [tok] }) := by
  unfold gtexConversion at hconv
  unfold process_variant
  rw [hfresh]
  rcases hvc : variantComponents tok with - | ⟨c0, n0, r0, a0, g0⟩
  · simp only [hvc] at hconv
    cases hconv
  · simp only [hvc] at hconv ⊢
    rcases hcv : conv c0 n0 r0 a0 g0 "p1" with - | h0
    · simp only [hcv]
    · simp only [hcv] at hconv ⊢
      by_cases hz : h0 = ""
      · rw [if_pos hz]
      · rw [if_neg hz] at hconv
        injection hconv with hq
        cases hq

theorem callVariantN_fixpoint {conv : HgvsConv} {st st1 : LoaderState} {tok : String}
    {r : Option String} (h1 : process_variant conv st tok = Except.ok (r, st1))
    (h2 : process_variant conv st1 tok = Except.ok (r, st1)) :
    ∀ n : Nat, callVariantN conv st tok (n + 1) =
      Except.ok (List.replicate (n + 1) r, st1)
  | 0 => by
    have h0 : callVariantN conv st tok 0 = Except.ok ([], st) := rfl
    unfold callVariantN
    simp only [h0, h1, List.nil_append]
    rfl
  | n + 1 => by
    have hn := callVariantN_fixpoint h1 h2 n
    unfold callVariantN
    simp only [hn, h2]
    rw [← List.replicate_succ']

/-- C5: process_variant memoizes both outcomes.  For a token not yet in
the lookup whose conversion succeeds with the truthy HGVS expression h,
every number of repeated calls returns the same curie each time, reaches a
state that is a fixed point whose node log grew by exactly one variant
node (written on the first call only), and every later call returns the
cached curie without consulting the conversion capability at all.  For a
token whose conversion fails, every call returns the no-id result none,
no variant node is ever written for it, and later calls are likewise
independent of the conversion capability. -/
theorem gtex_c5_variant_memoization (conv : HgvsConv) (st : LoaderState) (tok : String)
    (hfresh : assocFind st.varLookup tok = none) :
    (∀ h : String, gtexConversion conv tok = Except.ok (some h) →
      ∃ st1 : LoaderState,
        (∀ n : Nat, callVariantN conv st tok (n + 1) =
          Except.ok (List.replicate (n + 1) (some (HGVSPrefix ++ ":" ++ h)), st1)) ∧
        st1.nodesWritten = st.nodesWritten ++
          [⟨HGVSPrefix ++ ":" ++ h, h, [sequenceVariantType]⟩] ∧
        (∀ conv2 : HgvsConv, process_variant conv2 st1 tok =
          Except.ok (some (HGVSPrefix ++ ":" ++ h), st1))) ∧
    (gtexConversion conv tok = Except.ok none →
      ∃ st1 : LoaderState,
        (∀ n : Nat, callVariantN conv st tok (n + 1) =
          Except.ok (List.replicate (n + 1) none, st1)) ∧
        st1.nodesWritten = st.nodesWritten ∧
        (∀ conv2 : HgvsConv, process_variant conv2 st1 tok = Except.ok (none, st1))) := by
  constructor
  · intro h hconv
    refine ⟨{ st with varLookup := st.varLookup ++ [(tok, some (HGVSPrefix ++ ":" ++ h))], nodesWritten := st.nodesWritten ++ [⟨HGVSPrefix ++ ":" ++ h, h, [sequenceVariantType]⟩] }, ?_, rfl, ?_⟩
    · have h1 := process_variant_fresh_succ hfresh hconv
      have h2 : process_variant conv { st with varLookup := st.varLookup ++ [(tok, some (HGVSPrefix ++ ":" ++ h))], nodesWritten := st.nodesWritten ++ [⟨HGVSPrefix ++ ":" ++ h, h, [sequenceVariantType]⟩] } tok = Except.ok (some (HGVSPrefix ++ ":" ++ h), { st with varLookup := st.varLookup ++ [(tok, some (HGVSPrefix ++ ":" ++ h))], nodesWritten := st.nodesWritten ++ [⟨HGVSPrefix ++ ":" ++ h, h, [sequenceVariantType]⟩] }) :=
        process_variant_cached (assocFind_append_self _ _ hfresh)
      exact callVariantN_fixpoint h1 h2
    · intro conv2
      exact process_variant_cached (assocFind_append_self _ _ hfresh)
  · intro hconv
    refine ⟨{ st with varLookup := st.varLookup ++ [(tok, none)], failedConversions := st.failedConversions ++ [tok] }, ?_, rfl, ?_⟩
    · have h1 := process_variant_fresh_fail hfresh hconv
      have h2 : process_variant conv { st with varLookup := st.varLookup ++ [(tok, none)], failedConversions := st.failedConversions ++ [tok] } tok = Except.ok (none, { st with varLookup := st.varLookup ++ [(tok, none)], failedConversions := st.failedConversions ++ [tok] }) :=
        process_variant_cached (assocFind_append_self _ _ hfresh)
      exact callVariantN_fixpoint h1 h2
    · intro conv2
      exact process_variant_cached (assocFind_append_self _ _ hfresh)

/-- Witness for C5 with a concrete conversion capability and token. -/
theorem gtex_c5_variant_memoization_witness :
    ∃ st1 : LoaderState,
      (∀ n : Nat, callVariantN (fun _ _ _ _ _ _ => some "NC1:g.5T>C")
          ⟨[], [], [], [], []⟩ "chr1_5_T_C_b38" (n + 1) =
        Except.ok (List.replicate (n + 1) (some (HGVSPrefix ++ ":" ++ "NC1:g.5T>C")), st1)) ∧
      st1.nodesWritten = ([] : List NodeWrite) ++
        [⟨HGVSPrefix ++ ":" ++ "NC1:g.5T>C", "NC1:g.5T>C", [sequenceVariantType]⟩] ∧
      (∀ conv2 : HgvsConv, process_variant conv2 st1 "chr1_5_T_C_b38" =
        Except.ok (some (HGVSPrefix ++ ":" ++ "NC1:g.5T>C"), st1)) :=
  (gtex_c5_variant_memoization (fun _ _ _ _ _ _ => some "NC1:g.5T>C")
    ⟨[], [], [], [], []⟩ "chr1_5_T_C_b38" rfl).1 "NC1:g.5T>C" rfl

/-! ### Claim C6 -/

theorem process_variant_none_inv {conv : HgvsConv} {st st1 : LoaderState} {tok : String}
    (h : process_variant conv st tok = Except.ok (none, st1)) :
    st1.writtenGenes = st.writtenGenes ∧ st1.edgeList = st.edgeList ∧
    st1.nodesWritten = st.nodesWritten := by
  unfold process_variant at h
  rcases hl : assocFind st.varLookup tok with - | v
  · simp only [hl] at h
    rcases hvc : variantComponents tok with - | ⟨c0, n0, r0, a0, g0⟩
    · simp only [hvc] at h
      cases h
    · simp only [hvc] at h
      rcases hcv : conv c0 n0 r0 a0 g0 "p1" with - | h0
      · simp only [hcv] at h
        injection h with hq
        injection hq with _ hst
        rw [← hst]
        exact ⟨rfl, rfl, rfl⟩
      · simp only [hcv] at h
        by_cases hz : h0 = ""
        · rw [if_pos hz] at h
          injection h with hq
          injection hq with _ hst
          rw [← hst]
          exact ⟨rfl, rfl, rfl⟩
        · rw [if_neg hz] at h
          injection h with hq
          injection hq with hv _
          cases hv
  · simp only [hl] at h
    injection h with hq
    injection hq with _ hst
    rw [← hst]
    exact ⟨rfl, rfl, rfl⟩

/-- C6: a relationship tuple whose variant resolves to the no-id result
produces nothing: loadStep succeeds without registering a gene, without
appending an edge record to the accumulator and without writing any node
to the sink; only the variant caches may have changed. -/
theorem gtex_c6_noid_tuple_produces_nothing (conv : HgvsConv) (isSqtl : Bool)
    (st : LoaderState) (rel : GtexRelationship) (st1 : LoaderState)
    (hres : process_variant conv st rel.gtexVariant = Except.ok (none, st1)) :
    loadStep conv isSqtl st rel = Except.ok st1 ∧
    st1.writtenGenes = st.writtenGenes ∧ st1.edgeList = st.edgeList ∧
    st1.nodesWritten = st.nodesWritten := by
  have hinv := process_variant_none_inv hres
  refine ⟨?_, hinv.1, hinv.2.1, hinv.2.2⟩
  unfold loadStep
  simp only [hres]

/-- Witness for C6 with a conversion capability that always fails. -/
theorem gtex_c6_noid_tuple_produces_nothing_witness :
    loadStep (fun _ _ _ _ _ _ => none) false ⟨[], [], [], [], []⟩
        ⟨"UBERON:0002190", "chr1_5_T_C_b38", "ENSEMBL:g", "0.5", "1.5"⟩ =
      Except.ok ⟨[("chr1_5_T_C_b38", none)], ["chr1_5_T_C_b38"], [], [], []⟩ ∧
    (⟨[("chr1_5_T_C_b38", none)], ["chr1_5_T_C_b38"], [], [], []⟩ : LoaderState).writtenGenes =
      (⟨[], [], [], [], []⟩ : LoaderState).writtenGenes ∧
    (⟨[("chr1_5_T_C_b38", none)], ["chr1_5_T_C_b38"], [], [], []⟩ : LoaderState).edgeList =
      (⟨[], [], [], [], []⟩ : LoaderState).edgeList ∧
    (⟨[("chr1_5_T_C_b38", none)], ["chr1_5_T_C_b38"], [], [], []⟩ : LoaderState).nodesWritten =
      (⟨[], [], [], [], []⟩ : LoaderState).nodesWritten :=
  gtex_c6_noid_tuple_produces_nothing (fun _ _ _ _ _ _ => none) false ⟨[], [], [], [], []⟩
    ⟨"UBERON:0002190", "chr1_5_T_C_b38", "ENSEMBL:g", "0.5", "1.5"⟩
    ⟨[("chr1_5_T_C_b38", none)], ["chr1_5_T_C_b38"], [], [], []⟩ rfl

/-! ### Claim C10 -/

theorem create_edge_bad {pValue slope : String}
    (hbad : pyFloatOfString pValue = none ∨ pyFloatOfString slope = none)
    (anatomyId variantId geneId : String) (isSqtl : Bool) :
    create_edge anatomyId variantId geneId pValue slope isSqtl = Except.error () := by
  cases isSqtl
  · rcases hbad with hb | hb
    · rcases hs : pyFloatOfString slope with - | sv
      · simp [create_edge, hb, hs]
      · simp [create_edge, hb, hs]
    · simp [create_edge, hb]
  · rcases hbad with hb | hb
    · rcases hs : pyFloatOfString slope with - | sv
      · simp [create_edge, hb, hs]
      · simp [create_edge, hb, hs]
    · rcases hp : pyFloatOfString pValue with - | pv
      · simp [create_edge, hb, hp]
      · simp [create_edge, hb, hp]

/-- C10: numeric conversion of the text p-value and slope happens only in
create_edge, and when either text does not parse as a float the resulting
ValueError is not handled as a row-level skip: create_edge fails and the
per-relationship loop of load aborts at that tuple, never reaching the
remaining tuples. -/
theorem gtex_c10_unparsable_float_aborts_run (conv : HgvsConv) (isSqtl : Bool)
    (st st1 st2 : LoaderState) (rel : GtexRelationship) (v g : String)
    (rest : List GtexRelationship)
    (hvar : process_variant conv st rel.gtexVariant = Except.ok (some v, st1))
    (hv : v ≠ "")
    (hgene : process_gene st1 rel.gtexGene = Except.ok (g, st2))
    (hbad : pyFloatOfString rel.pValue = none ∨ pyFloatOfString rel.slope = none) :
    create_edge rel.anatomyId v g rel.pValue rel.slope isSqtl = Except.error () ∧
    loadRelationships conv isSqtl st (rel :: rest) = Except.error () := by
  have hce := create_edge_bad hbad rel.anatomyId v g isSqtl
  refine ⟨hce, ?_⟩
  unfold loadRelationships
  unfold loadStep
  simp only [hvar, if_neg hv, hgene, hce]

/-- Witness for C10: a relationship whose p-value text is not a float. -/
theorem gtex_c10_unparsable_float_aborts_run_witness :
    create_edge "UBERON:0002190" "HGVS:H" "ENSEMBL:g" "abc" "1.5" false = Except.error () ∧
    loadRelationships (fun _ _ _ _ _ _ => some "H") false ⟨[], [], [], [], []⟩
      [⟨"UBERON:0002190", "chr1_5_T_C_b38", "ENSEMBL:g", "abc", "1.5"⟩,
       ⟨"UBERON:0002190", "chr1_6_T_C_b38", "ENSEMBL:g", "0.5", "1.5"⟩] = Except.error () :=
  gtex_c10_unparsable_float_aborts_run (fun _ _ _ _ _ _ => some "H") false
    ⟨[], [], [], [], []⟩
    ⟨[("chr1_5_T_C_b38", some "HGVS:H")], [], [], [], [⟨"HGVS:H", "H", [sequenceVariantType]⟩]⟩
    ⟨[("chr1_5_T_C_b38", some "HGVS:H")], [], ["ENSEMBL:g"], [],
      [⟨"HGVS:H", "H", [sequenceVariantType]⟩, ⟨"ENSEMBL:g", "g", [geneNodeType]⟩]⟩
    ⟨"UBERON:0002190", "chr1_5_T_C_b38", "ENSEMBL:g", "abc", "1.5"⟩ "HGVS:H" "ENSEMBL:g"
    [⟨"UBERON:0002190", "chr1_6_T_C_b38", "ENSEMBL:g", "0.5", "1.5"⟩]
    rfl (by decide) rfl (Or.inl (by decide))

/-! ### Claim C2 -/

/-- Twelve-column sQTL line whose phenotype field has only four
colon-separated components, so the gene component at position 4 is
missing. -/
def sqtlLineMissingGene : String :=
  "chr1_13550_G_A_b38\tchr1:100:200:clu_1\tc\td\te\tf\t0.01\t0.5\ti\tj\tk\tl"

/-- Well-formed twelve-column sQTL line. -/
def sqtlLineGood : String :=
  "chr1_13550_G_A_b38\tchr1:100:200:clu_1:ENSG0001.11\tc\td\te\tf\t0.01\t0.5\ti\tj\tk\tl"

/-- Eleven-column line, one field short. -/
def sqtlLineElevenFields : String :=
  "chr1_13550_G_A_b38\tchr1:100:200:clu_1:ENSG0001.11\tc\td\te\tf\t0.01\t0.5\ti\tj\tk"

/-- C2 evaluated on the code: a twelve-column sQTL line whose phenotype
field lacks the gene component raises IndexError, which the handler (it
catches only KeyError, an exception list indexing never raises) does not
intercept, so the generator dies and subsequent lines are never parsed;
by contrast a line with a wrong column count is skipped and processing
continues, and the same file without the bad line parses fine.  This
contradicts the claim that a failed field extraction is logged and only
that line is discarded. -/
theorem gtex_c2_extraction_failure_is_fatal :
    parseLine true "UBERON:0001157" sqtlLineMissingGene = RowResult.fatalRow ∧
    parseTissueRows true "UBERON:0001157" [sqtlLineMissingGene, sqtlLineGood] =
      Except.error () ∧
    parseTissueRows true "UBERON:0001157" [sqtlLineGood] =
      Except.ok [⟨"UBERON:0001157", "chr1_13550_G_A_b38", "ENSEMBL:ENSG0001", "0.01", "0.5"⟩] ∧
    parseLine true "UBERON:0001157" sqtlLineElevenFields = RowResult.skipRow ∧
    parseTissueRows true "UBERON:0001157" [sqtlLineElevenFields, sqtlLineGood] =
      Except.ok [⟨"UBERON:0001157", "chr1_13550_G_A_b38", "ENSEMBL:ENSG0001", "0.01", "0.5"⟩] :=
  ⟨by decide, rfl, rfl, by decide, rfl⟩

/-! ### Claim C8 -/

/-- Claim C8 read literally at one archive: every entry whose name lacks
the marker signif is skipped without a handle to its contents being
opened, that is, no extractfile call is recorded for it. -/
def claimC8At (isSqtl : Bool) (lookup : List (String × String)) (entries : List TarEntry) : Prop :=
  ∀ e ∈ entries, hasSubstr e.name "signif" = false →
    TarAction.extractEntry e.name ∉ (parse_file_and_yield_relationships isSqtl lookup entries).1

/-- C8 counterexample: the reader calls tar.extractfile on every entry
before testing the name for the marker, so even for an archive whose only
entry does not match the marker a handle is obtained, refuting the claim
that non-matching entries are skipped without opening. -/
theorem gtex_c8_counterexample : ¬ claimC8At false [] [⟨"foo.txt", []⟩] := by
  intro h
  exact h ⟨"foo.txt", []⟩ (List.mem_singleton.mpr rfl) (by decide) (by decide)

theorem processEntry_openGzip {isSqtl : Bool} {lookup : List (String × String)}
    {e : TarEntry} {nm : String}
    (h : TarAction.openGzip nm ∈ (processEntry isSqtl lookup e).1) :
    nm = e.name ∧ hasSubstr e.name "signif" = true := by
  unfold processEntry at h
  by_cases hs : hasSubstr e.name "signif"
  · rw [if_pos hs] at h
    rcases hg : (pySplit '/' e.name).get? 1 with - | seg
    · simp only [hg] at h
      simp at h
    · simp only [hg] at h
      rcases hsp : pySplit '.' seg with - | ⟨tn, rest2⟩
      · simp only [hsp] at h
        simp at h
      · simp only [hsp] at h
        rcases hlk : assocFind lookup tn with - | anat
        · simp only [hlk] at h
          simp at h
        · simp only [hlk] at h
          simp only [List.mem_cons, List.mem_singleton] at h
          rcases h with h | h
          · cases h
          · rcases h with h | h
            · injection h with h2
              exact ⟨h2, hs⟩
            · cases h
  · rw [if_neg hs] at h
    simp at h

/-- C8 amended: the reader obtains a handle via extractfile for every
entry, before the marker test; entries whose name lacks the marker are
skipped right after that, so a gzip stream over the contents is only ever
opened for entries whose name contains the marker signif. -/
theorem gtex_c8_only_matching_entries_opened (isSqtl : Bool)
    (lookup : List (String × String)) :
    ∀ (entries : List TarEntry) (nm : String),
      TarAction.openGzip nm ∈ (parse_file_and_yield_relationships isSqtl lookup entries).1 →
      hasSubstr nm "signif" = true
  | [], nm, h => by
    simp [parse_file_and_yield_relationships] at h
  | e :: es, nm, h => by
    unfold parse_file_and_yield_relationships at h
    rcases List.mem_append.mp h with h3 | h3
    · have h2 := @processEntry_openGzip isSqtl lookup e nm h3
      rw [h2.1]
      exact h2.2
    · rcases hpe : (processEntry isSqtl lookup e).2 with ⟨⟩ | rels
      · simp only [hpe] at h3
        simp at h3
      · simp only [hpe] at h3
        exact gtex_c8_only_matching_entries_opened isSqtl lookup es nm h3

/-- Witness for the amended C8 on a concrete archive. -/
theorem gtex_c8_only_matching_entries_opened_witness :
    hasSubstr "GTEx_Analysis_v8_eQTL/Lung.v8.signif_variant_gene_pairs.txt.gz" "signif" = true :=
  gtex_c8_only_matching_entries_opened false [("Lung", "UBERON:0002048")]
    [⟨"GTEx_Analysis_v8_eQTL/Lung.v8.signif_variant_gene_pairs.txt.gz", ["hdr"]⟩]
    "GTEx_Analysis_v8_eQTL/Lung.v8.signif_variant_gene_pairs.txt.gz" (by decide)
